import Mathlib

/-!
Verification of the Overture playlist orchestration service.

Strings are modelled as lists of Unicode code points (`List Nat`); the
character classification and case mapping of Go's `unicode` package are
modelled on the ASCII range, which is the range all behaviour claimed
here exercises.  Floating-point scores and audio features are modelled
as exact rationals.
-/

namespace Overture

/-- A string, as a list of code points. -/
abbrev Str := List Nat

/-- Convert a Lean string literal to its code-point list. -/
def strChars (s : String) : Str := s.data.map Char.toNat

/-- ASCII model of Go `unicode.IsDigit`. -/
def isDigitChar (c : Nat) : Bool := 48 ≤ c ∧ c ≤ 57

/-- ASCII model of Go `unicode.IsLetter`. -/
def isLetterChar (c : Nat) : Bool := (65 ≤ c ∧ c ≤ 90) ∨ (97 ≤ c ∧ c ≤ 122)

/-- ASCII model of Go `unicode.IsSpace`. -/
def isSpaceChar (c : Nat) : Bool := c = 32 ∨ c = 9 ∨ c = 10 ∨ c = 11 ∨ c = 12 ∨ c = 13

/-- ASCII model of Go `strings.ToLower` on a single code point. -/
def toLowerChar (c : Nat) : Nat := if 65 ≤ c ∧ c ≤ 90 then c + 32 else c

/-- Go `strings.ToLower`. -/
def toLowerStr (s : Str) : Str := s.map toLowerChar

/-- Go `strings.TrimSpace`. -/
def trimSpace (s : Str) : Str :=
  ((s.dropWhile (isSpaceChar ·)).reverse.dropWhile (isSpaceChar ·)).reverse

/-- Go `strings.EqualFold` (ASCII case folding). -/
def equalFold (a b : Str) : Bool := toLowerStr a = toLowerStr b

/-- Go `strings.Contains` on code-point lists. -/
def containsSeq (s pat : Str) : Bool :=
  (List.range (s.length + 1)).any (fun i => pat.isPrefixOf (s.drop i))

/-- Go `strings.LastIndex` restricted to a single-character needle:
the largest index at which `c` occurs. -/
def lastIndexOfChar (c : Nat) (s : Str) : Option Nat :=
  match s.reverse.indexOf? c with
  | none => none
  | some j => some (s.length - 1 - j)

/-- Go `strings.LastIndex` for an arbitrary needle: the largest index at
which `pat` starts in `s`. -/
def lastIndexOfSeq (pat s : Str) : Option Nat :=
  ((List.range (s.length + 1)).filter (fun i => pat.isPrefixOf (s.drop i))).getLast?

/-- The accumulator loop of Go `strings.Fields`: `cur` holds the
characters of the token being built, most recent first. -/
def fieldsAux : Str → Str → List Str
  | [], cur => if cur = [] then [] else [cur.reverse]
  | c :: rest, cur =>
      if isSpaceChar c then
        if cur = [] then fieldsAux rest []
        else cur.reverse :: fieldsAux rest []
      else fieldsAux rest (c :: cur)

/-- Go `strings.Fields`: split on runs of white space. -/
def fields (s : Str) : List Str := fieldsAux s []

/-- Go `strings.Join` with a single-space separator. -/
def joinSpace : List Str → Str
  | [] => []
  | [t] => t
  | t :: ts => t ++ 32 :: joinSpace ts

/-- The noise-token set of `normalize.go` (`noiseTokens`). -/
def noiseTokens : List Str :=
  [strChars "clean", strChars "deluxe", strChars "edition", strChars "edit",
   strChars "explicit", strChars "feat", strChars "featuring", strChars "ft",
   strChars "live", strChars "mix", strChars "mono", strChars "radio",
   strChars "remaster", strChars "remastered", strChars "stereo", strChars "version"]

/-- The suffix-token set of `mapper.go` (`searchSuffixTokens`); the same
sixteen tokens as `noiseTokens`. -/
def searchSuffixTokens : List Str := noiseTokens

/-- `cleanSeparators` of `normalize.go`: keep letters and digits, collapse
every other run of characters to a single space.  The Boolean argument is
the `lastSpace` flag of the Go loop. -/
def cleanSeparators : Str → Bool → Str
  | [], _ => []
  | c :: rest, lastSpace =>
      if isLetterChar c ∨ isDigitChar c then c :: cleanSeparators rest false
      else if lastSpace then cleanSeparators rest true
      else 32 :: cleanSeparators rest true

/-- `stripBracketedSegments` of `normalize.go`: drop every character that
lies inside parentheses or square brackets (tracking nesting `depth`). -/
def stripBracketedSegments : Str → Nat → Str
  | [], _ => []
  | c :: rest, depth =>
      if c = 40 ∨ c = 91 then stripBracketedSegments rest (depth + 1)
      else if c = 41 ∨ c = 93 then stripBracketedSegments rest (depth - 1)
      else if depth = 0 then c :: stripBracketedSegments rest depth
      else stripBracketedSegments rest depth

/-- `normalizeSearchInput` of `normalize.go`. -/
def normalizeSearchInput (input : Str) : Str :=
  if input = [] then []
  else
    let lower := toLowerStr input
    let filtered := stripBracketedSegments lower 0
    let tokens := fields (cleanSeparators filtered false)
    let cleaned := tokens.filter (fun t => ¬ t ∈ noiseTokens)
    joinSpace cleaned

/-- `normalizeTitleArtist` of `normalize.go`. -/
def normalizeTitleArtist (title artist : Str) : Str × Str :=
  (normalizeSearchInput title, normalizeSearchInput artist)

/-- `fallbackIfEmpty` of `normalize.go`. -/
def fallbackIfEmpty (value fallback : Str) : Str :=
  if trimSpace value = [] then fallback else value

/-- `suffixHasToken` of `mapper.go`: whether a candidate suffix segment
contains one of the noise tokens. -/
def suffixHasToken (input : Str) : Bool :=
  if trimSpace input = [] then false
  else (fields (cleanSeparators (toLowerStr input) false)).any
    (fun token => token ∈ searchSuffixTokens)

/-- `trimBracketedSuffix` of `mapper.go`: strip one trailing parenthesized
or square-bracketed segment, provided it contains a noise token. -/
def trimBracketedSuffix (input : Str) : Str :=
  let trimmed := trimSpace input
  if trimmed.getLast? = some 41 then
    match lastIndexOfChar 40 trimmed with
    | some idx =>
        if idx < trimmed.length - 1 then
          let suffix := (trimmed.take (trimmed.length - 1)).drop (idx + 1)
          if suffixHasToken suffix then trimSpace (trimmed.take idx) else input
        else input
    | none => input
  else if trimmed.getLast? = some 93 then
    match lastIndexOfChar 91 trimmed with
    | some idx =>
        if idx < trimmed.length - 1 then
          let suffix := (trimmed.take (trimmed.length - 1)).drop (idx + 1)
          if suffixHasToken suffix then trimSpace (trimmed.take idx) else input
        else input
    | none => input
  else input

/-- `trimDashSuffix` of `mapper.go`: strip one trailing `" - "`-separated
segment, provided it contains a noise token. -/
def trimDashSuffix (input : Str) : Str :=
  let trimmed := trimSpace input
  match lastIndexOfSeq [32, 45, 32] trimmed with
  | none => input
  | some idx =>
      let suffix := trimSpace (trimmed.drop (idx + 3))
      if suffixHasToken suffix then trimSpace (trimmed.take idx) else input

/-- The body of `stripCommonSuffixes`' unbounded loop, with explicit fuel.
Every productive iteration strictly shortens the string, so fuel equal to
the length of the string makes the fuelled loop agree with the Go loop. -/
def stripLoop : Nat → Str → Str
  | 0, trimmed => trimmed
  | fuel + 1, trimmed =>
      let next := trimDashSuffix (trimBracketedSuffix trimmed)
      if next = trimmed then trimmed else stripLoop fuel (trimSpace next)

/-- `stripCommonSuffixes` of `mapper.go`. -/
def stripCommonSuffixes (input : Str) : Str :=
  stripLoop (input.length + 1) (trimSpace input)

/-- `Normalize` of `mapper.go`. -/
def Normalize (input : Str) : Str :=
  if trimSpace input = [] then []
  else
    let lowered := toLowerStr (trimSpace input)
    let trimmed := stripCommonSuffixes lowered
    let cleaned := cleanSeparators trimmed false
    joinSpace (fields cleaned)

/-- `min3` of `mapper.go` / `match.go`. -/
def min3 (a b c : Nat) : Nat :=
  let m := a
  let m := if b < m then b else m
  if c < m then c else m

/-- `maxInt` of `mapper.go` (`max` in `match.go`). -/
def maxInt (a b : Nat) : Nat := if a > b then a else b

/-- The classic insert/delete/substitute cost-1 recurrence, with
structural fuel so that the kernel can evaluate it.  With fuel at least
`a.length + b.length` it computes the Levenshtein distance, which is the
function the two-row dynamic program of `mapper.go` computes. -/
def levFuel : Nat → Str → Str → Nat
  | _, [], b => b.length
  | _, a, [] => a.length
  | 0, a, b => maxInt a.length b.length
  | fuel + 1, x :: xs, y :: ys =>
      min3 (levFuel fuel xs (y :: ys) + 1)
           (levFuel fuel (x :: xs) ys + 1)
           (levFuel fuel xs ys + (if x = y then 0 else 1))

/-- `levenshteinDistance` of `mapper.go` / `match.go`: rune-based
Levenshtein distance. -/
def levenshteinDistance (a b : Str) : Nat :=
  levFuel (a.length + b.length) a b

/-- `similarity` of `mapper.go` / `match.go`. -/
def similarity (a b : Str) : ℚ :=
  if a = b then 1
  else
    let maxLen := maxInt a.length b.length
    if maxLen = 0 then 1
    else 1 - (levenshteinDistance a b : ℚ) / (maxLen : ℚ)

/-- `ScoreResult` of `mapper.go`: similarity of the two normalized
artist-and-title concatenations. -/
def ScoreResult (targetArtist targetTitle actualArtist actualTitle : Str) : ℚ :=
  let target := Normalize (trimSpace (targetArtist ++ [32] ++ targetTitle))
  let actual := Normalize (trimSpace (actualArtist ++ [32] ++ actualTitle))
  if target = [] ∨ actual = [] then 0
  else similarity target actual

/-- The raw Spotify track record (`spotifyTrack` of `models.go`):
`artists` holds the artist names, `albumImages` the album image URLs. -/
structure SpotifyTrackData where
  id : Str
  name : Str
  durationMs : Nat
  artists : List Str
  albumName : Str
  albumImages : List Str
  isrc : Str
deriving DecidableEq

/-- `joinArtistNames` of `mapper.go` / `match.go`: artist names joined
with single spaces. -/
def joinArtistNames (track : SpotifyTrackData) : Str :=
  if track.artists = [] then []
  else List.intercalate [32] track.artists

/-- `trackMatchScore` of `match.go`: the 0.7/0.3-weighted title/artist
similarity on independently normalized strings, with its acceptance
thresholds. -/
def trackMatchScore (requestTitle requestArtist : Str) (candidate : SpotifyTrackData) :
    ℚ × Bool :=
  let normalizedTitle := normalizeSearchInput requestTitle
  let normalizedArtist := normalizeSearchInput requestArtist
  let candidateTitle := normalizeSearchInput candidate.name
  let candidateArtist := normalizeSearchInput (joinArtistNames candidate)
  if normalizedTitle = [] ∨ normalizedArtist = [] ∨ candidateTitle = [] ∨ candidateArtist = []
  then (0, false)
  else
    let titleSim := similarity normalizedTitle candidateTitle
    let artistSim := similarity normalizedArtist candidateArtist
    let score := 7/10 * titleSim + 3/10 * artistSim
    if titleSim < 65/100 ∨ artistSim < 55/100 ∨ score < 7/10 then (score, false)
    else (score, true)

/-- `artistExactMatch` of the search logic: some candidate artist,
trimmed, equals the trimmed target case-insensitively. -/
def artistExactMatch (candidate : SpotifyTrackData) (target : Str) : Bool :=
  let t := trimSpace target
  if t = [] then false
  else candidate.artists.any (fun a => equalFold (trimSpace a) t)

/-- `titleSubstringMatch` of the search logic. -/
def titleSubstringMatch (candidateTitle targetTitle : Str) : Bool :=
  let ct := toLowerStr (trimSpace candidateTitle)
  let tt := toLowerStr (trimSpace targetTitle)
  if ct = [] ∨ tt = [] then false
  else containsSeq ct tt

/-- The score and boost flags `searchTrack` computes for one candidate:
base composite similarity, +0.4 on an exact artist match, +0.3 on a title
substring match, clamped to 1. -/
def candidateScore (artist title : Str) (candidate : SpotifyTrackData) : ℚ × Bool × Bool :=
  let candidateArtist := joinArtistNames candidate
  let base := ScoreResult artist title candidateArtist candidate.name
  let exact := artistExactMatch candidate artist
  let s1 := if exact then base + 2/5 else base
  let titleM := titleSubstringMatch candidate.name title
  let s2 := if titleM then s1 + 3/10 else s1
  (if s2 > 1 then 1 else s2, exact, titleM)

/-- The best-candidate tracking state of `searchTrack`'s loop
(`bestScore`, `bestIndex`, `bestExactArtist`, `bestTitleMatch`);
`bestIndex = none` models Go's `-1`. -/
structure MatchState where
  bestScore : ℚ
  bestIndex : Option Nat
  bestExactArtist : Bool
  bestTitleMatch : Bool
deriving DecidableEq

/-- `searchTrack`'s candidate loop over the scored candidates, carrying
the next candidate index and the tracking state. -/
def searchLoop (minConfidence : ℚ) : List (ℚ × Bool × Bool) → Nat → MatchState → MatchState
  | [], _, st => st
  | (score, exact, titleM) :: rest, i, st =>
      if minConfidence ≤ score ∧
         (st.bestScore < score ∨
          (score = st.bestScore ∧
           ((exact ∧ ¬ st.bestExactArtist) ∨
            (exact = st.bestExactArtist ∧ titleM ∧ ¬ st.bestTitleMatch))))
      then searchLoop minConfidence rest (i + 1) ⟨score, some i, exact, titleM⟩
      else searchLoop minConfidence rest (i + 1) st

/-- The distinguishable no-confident-match error
(`ports.NoConfidentMatchError`), carrying the original title and artist. -/
structure NoConfidentMatchErr where
  title : Str
  artist : Str
deriving DecidableEq

/-- The candidate-selection logic of `searchTrack` (`part_011`), given the
decoded search items: cap at the first 5 candidates, score each, keep the
best scoring candidate at or above `minConfidence` under the loop's
tie-breaking, and fail with the no-confident-match error otherwise. -/
def searchTrack (title artist : Str) (items : List SpotifyTrackData) (minConfidence : ℚ) :
    Except NoConfidentMatchErr SpotifyTrackData :=
  if items = [] then .error ⟨title, artist⟩
  else
    let scored := (items.take 5).map (candidateScore artist title)
    let final := searchLoop minConfidence scored 0 ⟨0, none, false, false⟩
    match final.bestIndex with
    | none => .error ⟨title, artist⟩
    | some i => .ok (items.getD i ⟨[], [], 0, [], [], [], []⟩)

/-- `domain.AudioFeatures`: the six audio-characteristic scalars,
modelled as exact rationals. -/
structure AudioFeatures where
  danceability : ℚ := 0
  energy : ℚ := 0
  valence : ℚ := 0
  tempo : ℚ := 0
  instrumentalness : ℚ := 0
  acousticness : ℚ := 0
deriving DecidableEq

/-- `domain.Track`. -/
structure Track where
  id : Str
  title : Str
  artist : Str
  album : Str
  coverURL : Str
  durationMs : Nat
  isrc : Str
  features : AudioFeatures
deriving DecidableEq

/-- `domain.Playlist`. -/
structure Playlist where
  id : Str
  name : Str
  tracks : List Track
deriving DecidableEq

/-- `domain.ErrDuplicateISRC`, the distinguishable duplicate-code error. -/
inductive DomainErr where
  | duplicateISRC
deriving DecidableEq

/-- `Playlist.AddTrack` of `playlist.go`: reject with `ErrDuplicateISRC`
when the incoming track's ISRC is non-empty and already present, leaving
the playlist unchanged; otherwise append.  The Go method mutates its
receiver and returns an error; modelled as the resulting playlist or the
error. -/
def AddTrack (p : Playlist) (t : Track) : Except DomainErr Playlist :=
  if t.isrc ≠ [] ∧ p.tracks.any (fun ex => ex.isrc ≠ [] ∧ ex.isrc = t.isrc)
  then .error .duplicateISRC
  else .ok { p with tracks := p.tracks ++ [t] }

/-- `domain.VibeConstraint`. -/
structure VibeConstraint where
  target : ℚ := 0
  min : ℚ := 0
  max : ℚ := 0
  weight : Str := []
deriving DecidableEq

/-- The four optional per-feature constraints of `domain.IntentObject`
(`nil` pointers modelled as `none`). -/
structure VibeConstraints where
  energy : Option VibeConstraint := none
  valence : Option VibeConstraint := none
  acoustic : Option VibeConstraint := none
  instrument : Option VibeConstraint := none
deriving DecidableEq

/-- `domain.IntentObject`. -/
structure IntentObject where
  intentType : Str := []
  artists : List Str := []
  genres : List Str := []
  vibeConstraints : VibeConstraints := {}
  sequencePattern : Str := []
  sequenceDescription : Str := []
  explanation : Str := []
deriving DecidableEq

/-- `checkConstraint` of `orchestrator.go`: a single feature value against
an optional constraint; `nil` and the `[0,0]` sentinel pass, otherwise the
inclusive range is checked. -/
def checkConstraint (value : ℚ) (constraint : Option VibeConstraint) : Bool :=
  match constraint with
  | none => true
  | some c =>
      if c.min = 0 ∧ c.max = 0 then true
      else c.min ≤ value ∧ value ≤ c.max

/-- `matchesConstraints` of `orchestrator.go`: energy, valence,
acousticness and instrumentalness must each pass `checkConstraint`. -/
def matchesConstraints (features : AudioFeatures) (constraints : IntentObject) : Bool :=
  let vc := constraints.vibeConstraints
  if ¬ checkConstraint features.energy vc.energy then false
  else if ¬ checkConstraint features.valence vc.valence then false
  else if ¬ checkConstraint features.acousticness vc.acoustic then false
  else if ¬ checkConstraint features.instrumentalness vc.instrument then false
  else true

/-- The service-level error cases `ProcessIntent` can surface. -/
inductive ServiceErr where
  | notConfigured
  | analyzeFailed
  | loadPlaylistFailed
  | addTracksFailed
deriving DecidableEq

/-- `services.IntentResult`. -/
structure IntentResult where
  intent : IntentObject
  tracksEvaluated : Nat
  tracksAdded : Nat
  summaryFound : Nat
  summaryAdded : Nat
  summaryArtist : Str
deriving DecidableEq

/-- One step of `ProcessIntent`'s dedup-by-ID accumulation (`seenTracks`
check followed by the two appends). -/
def dedupStep (st : List Str × List Track) (t : Track) : List Str × List Track :=
  if t.id ∈ st.1 then st else (st.1 ++ [t.id], st.2 ++ [t])

/-- The per-artist fetch-and-deduplicate loop of `ProcessIntent` (step 3):
tracks whose ID was already seen are skipped, a failed fetch skips that
artist, and `seen` accumulates the IDs encountered so far. -/
def fetchLoop (fetch : Str → Except Unit (List Track)) :
    List Str → List Str × List Track → List Str × List Track
  | [], st => st
  | artist :: rest, st =>
      match fetch artist with
      | .error _ => fetchLoop fetch rest st
      | .ok tracks => fetchLoop fetch rest (tracks.foldl dedupStep st)

/-- The artist-name fragment of `ProcessIntent`'s summary: the first
artist, with `" and others"` appended when there is more than one. -/
def summaryArtistNames (artists : List Str) : Str :=
  match artists with
  | [] => []
  | [a] => a
  | a :: _ :: _ => a ++ strChars " and others"

/-- `ProcessIntent` of `orchestrator.go`, with its collaborators passed as
values: `hasIntent` models whether the intent compiler is configured,
`analyze` the compiler's answer for the message, `getPlaylist` the
repository load, `fetch` the per-artist top-track fetch, and `persist`
the outcome of the batch add. -/
def ProcessIntent (hasIntent : Bool) (analyze : Except Unit IntentObject)
    (getPlaylist : Except Unit Playlist) (fetch : Str → Except Unit (List Track))
    (persist : Except Unit Unit) : Except ServiceErr IntentResult :=
  if ¬ hasIntent then .error .notConfigured
  else
    match analyze with
    | .error _ => .error .analyzeFailed
    | .ok intent =>
        match getPlaylist with
        | .error _ => .error .loadPlaylistFailed
        | .ok playlist =>
            let existingTracks := playlist.tracks.map (·.id)
            let allTracks := (fetchLoop fetch intent.artists ([], [])).2
            let matchingTracks := allTracks.filter
              (fun t => ¬ t.id ∈ existingTracks ∧ matchesConstraints t.features intent)
            let persisted : Except ServiceErr Unit :=
              if matchingTracks.length > 0 then
                match persist with
                | .error _ => .error .addTracksFailed
                | .ok _ => .ok ()
              else .ok ()
            match persisted with
            | .error e => .error e
            | .ok _ =>
                .ok { intent := intent
                      tracksEvaluated := allTracks.length
                      tracksAdded := matchingTracks.length
                      summaryFound := allTracks.length
                      summaryAdded := matchingTracks.length
                      summaryArtist := summaryArtistNames intent.artists }

/-- `spotifyAudioFeatures` of `models.go` (the audio-features API
payload), modelled with exact rationals. -/
structure SpotifyAudioFeaturesData where
  danceability : ℚ
  energy : ℚ
  valence : ℚ
  tempo : ℚ
  instrumentalness : ℚ
  acousticness : ℚ
deriving DecidableEq

/-- `allFeaturesZero` of the resolver (`part_004`). -/
def allFeaturesZero (features : SpotifyAudioFeaturesData) : Bool :=
  features.danceability = 0 ∧ features.energy = 0 ∧ features.valence = 0 ∧
  features.tempo = 0 ∧ features.instrumentalness = 0 ∧ features.acousticness = 0

/-- `mapTrackToDomain` of `mapper.go`: flatten the artist list with
`", "`, take the first album image as cover, copy the metadata, and copy
the feature payload when one is provided. -/
def mapTrackToDomain (st : SpotifyTrackData) (features : Option SpotifyAudioFeaturesData) :
    Track :=
  let artist := List.intercalate (strChars ", ") st.artists
  let coverURL := match st.albumImages with
    | [] => []
    | url :: _ => url
  let base : Track :=
    { id := st.id, title := st.name, artist := artist, album := st.albumName,
      coverURL := coverURL, durationMs := st.durationMs, isrc := st.isrc,
      features := {} }
  match features with
  | none => base
  | some f =>
      { base with features :=
          { danceability := f.danceability, energy := f.energy, valence := f.valence,
            tempo := f.tempo, instrumentalness := f.instrumentalness,
            acousticness := f.acousticness } }

/-- 32-bit FNV-1a over the bytes of the track ID (`hash/fnv`,
`fnv.New32a`): offset basis 2166136261, prime 16777619, XOR then
multiply modulo 2^32. -/
def fnv32a (bytes : Str) : Nat :=
  bytes.foldl (fun h b => ((h ^^^ b) * 16777619) % 4294967296) 2166136261

/-- Modelled from the spec: the seeded pseudo-random generator
(`math/rand`, `rand.New(rand.NewSource(seed))`) is outside this
repository; per the spec it is a deterministic pure function of the seed
whose successive `Float64()` draws lie in `[0,1)`.  Its lagged-Fibonacci
internals are abstracted as a 64-bit linear congruential step. -/
def rngStep (s : Nat) : Nat :=
  (6364136223846793005 * s + 1442695040888963407) % 18446744073709551616

/-- Modelled from the spec: the `k`-th (0-based) `Float64()` draw of the
generator seeded with `seed`; a rational in `[0,1)`. -/
def rngFloat64 (seed k : Nat) : ℚ :=
  ((Nat.iterate rngStep (k + 1) seed : Nat) : ℚ) / 18446744073709551616

/-- The `between` helper of `generateDeterministicFeatures`: scale a
`[0,1)` draw into `[lo, hi)`. -/
def betweenDraw (lo hi draw : ℚ) : ℚ := lo + draw * (hi - lo)

/-- `generateDeterministicFeatures` of the resolver (`part_004`): seed a
fresh generator from the FNV-1a hash of the track ID and draw the six
features, in the source's field order (energy, valence, danceability,
acousticness, instrumentalness, tempo). -/
def generateDeterministicFeatures (trackID : Str) : AudioFeatures :=
  let seed := fnv32a trackID
  { energy := betweenDraw (1/10) (9/10) (rngFloat64 seed 0)
    valence := betweenDraw (1/10) (9/10) (rngFloat64 seed 1)
    danceability := betweenDraw (1/10) (9/10) (rngFloat64 seed 2)
    acousticness := betweenDraw (1/10) (9/10) (rngFloat64 seed 3)
    instrumentalness := betweenDraw (1/10) (9/10) (rngFloat64 seed 4)
    tempo := betweenDraw 60 180 (rngFloat64 seed 5) }

/-- The outcome of the audio-features HTTP call in `GetTrack`: a
transport failure, or an HTTP status with the decoded body (`none` for a
body that fails to decode). -/
inductive FeaturesFetch where
  | transportErr
  | http (status : Nat) (body : Option SpotifyAudioFeaturesData)
deriving DecidableEq

/-- The resolver-level errors `GetTrack` can surface. -/
inductive ResolveErr where
  | search
  | featuresRequest
  | featuresStatus (code : Nat)
  | featuresDecode
deriving DecidableEq

/-- The feature-enrichment logic of `GetTrack` (`part_004`): on 403 or
404 substitute the deterministic features; on any other non-200 status or
a transport/decode failure propagate an error; on an all-zero payload
substitute; otherwise use the fetched payload. -/
def GetTrack (search : Except Unit SpotifyTrackData) (featuresResp : FeaturesFetch) :
    Except ResolveErr Track :=
  match search with
  | .error _ => .error .search
  | .ok track =>
      let mapped := mapTrackToDomain track none
      match featuresResp with
      | .transportErr => .error .featuresRequest
      | .http status body =>
          if status ≠ 200 then
            if status = 403 ∨ status = 404 then
              .ok { mapped with features := generateDeterministicFeatures track.id }
            else .error (.featuresStatus status)
          else
            match body with
            | none => .error .featuresDecode
            | some features =>
                if allFeaturesZero features then
                  .ok { mapped with features := generateDeterministicFeatures track.id }
                else .ok (mapTrackToDomain track (some features))

/-! ### Specification-side reference definitions

These definitions restate, in direct recursive form, what the spec's
sentences describe; the theorems below relate the embedded code to them.
-/

/-- The claim's candidate preference: `a` beats `b` when it scores
higher, or scores equally and wins the exact-artist then title-substring
tie-break.  This is the comparison `searchTrack`'s loop applies. -/
def better (a b : ℚ × Bool × Bool) : Bool :=
  decide (b.1 < a.1) ||
  (decide (a.1 = b.1) &&
    ((a.2.1 && !b.2.1) || (decide (a.2.1 = b.2.1) && a.2.2 && !b.2.2)))

/-- The numeric rank of the two boost flags under the tie-break order:
exact-artist dominates title-substring. -/
def flagRank (e t : Bool) : Nat := (if e then 2 else 0) + (if t then 1 else 0)

/-- Reference selection: the first best-scoring entry of `l` (index and
entry) among those at or above `minConf` and strictly preferred to
`cur`. -/
def selRel (minConf : ℚ) (cur : ℚ × Bool × Bool) :
    List (ℚ × Bool × Bool) → Option (Nat × (ℚ × Bool × Bool))
  | [] => none
  | s :: rest =>
      if minConf ≤ s.1 ∧ better s cur then
        some ((selRel minConf s rest).elim (0, s) (fun p => (p.1 + 1, p.2)))
      else
        (selRel minConf cur rest).map (fun p => (p.1 + 1, p.2))

/-- Reference first-occurrence deduplication by track ID, as described by
pipeline step 5 ("first occurrence wins"). -/
def dedupById : List Track → List Str → List Track
  | [], _ => []
  | t :: ts, seen =>
      if t.id ∈ seen then dedupById ts seen
      else t :: dedupById ts (t.id :: seen)

/-- Whether the top-tracks fetch for an artist succeeds. -/
def fetchOK (fetch : Str → Except Unit (List Track)) (artist : Str) : Bool :=
  match fetch artist with
  | .ok _ => true
  | .error _ => false

/-- All tracks returned by the successful per-artist fetches, in fetch
order, before any deduplication. -/
def successfulTracks (fetch : Str → Except Unit (List Track)) (artists : List Str) :
    List Track :=
  (artists.filterMap (fun a => (fetch a).toOption)).flatten

/-- The weighted composite score the spec's sentence describes: 0.7 times
the title similarity plus 0.3 times the artist similarity, each on
independently normalized strings. -/
def weightedCompositeScore (targetArtist targetTitle actualArtist actualTitle : Str) : ℚ :=
  7/10 * similarity (normalizeSearchInput targetTitle) (normalizeSearchInput actualTitle) +
  3/10 * similarity (normalizeSearchInput targetArtist) (normalizeSearchInput actualArtist)

instance exceptDecEq {ε α : Type} [DecidableEq ε] [DecidableEq α] :
    DecidableEq (Except ε α) := fun x y =>
  match x, y with
  | .ok a, .ok b =>
      if h : a = b then .isTrue (by rw [h]) else .isFalse (by simp [h])
  | .error a, .error b =>
      if h : a = b then .isTrue (by rw [h]) else .isFalse (by simp [h])
  | .ok _, .error _ => .isFalse (by simp)
  | .error _, .ok _ => .isFalse (by simp)

/-! ### Concrete test vectors for the pipeline scenario -/

/-- A bare track with the given ID (metadata empty, features zero). -/
def exTrack (id : Str) : Track := ⟨id, [], [], [], [], 0, [], {}⟩

/-- Scenario fetch: the first artist yields five tracks, every other
artist's fetch fails. -/
def exFetch : Str → Except Unit (List Track) := fun a =>
  if a = strChars "willie nelson" then
    .ok [exTrack (strChars "t1"), exTrack (strChars "t2"), exTrack (strChars "t3"),
         exTrack (strChars "t4"), exTrack (strChars "t5")]
  else .error ()

/-- Scenario playlist already holding two of the five tracks. -/
def exPlaylist : Playlist :=
  ⟨strChars "p", strChars "mix", [exTrack (strChars "t1"), exTrack (strChars "t2")]⟩

/-- Scenario intent: one fetchable artist, one failing artist, no vibe
constraints. -/
def exIntent : IntentObject :=
  { artists := [strChars "willie nelson", strChars "ghost"] }

/-! ### Playlist aggregate: claims C4 and C10 -/

/-- C4: adding a track whose external code (ISRC) is non-empty and equal
to the non-empty code of a track already in the playlist yields the
distinguishable duplicate-code error and leaves the playlist unchanged
(two same-code adds leave exactly one track); every other add appends
and succeeds. -/
theorem C4_addTrack_duplicate_code :
    (∀ (p : Playlist) (t : Track),
        AddTrack p t = .error .duplicateISRC ↔
          t.isrc ≠ [] ∧ ∃ ex ∈ p.tracks, ex.isrc ≠ [] ∧ ex.isrc = t.isrc) ∧
    (∀ (p : Playlist) (t : Track),
        ¬ (t.isrc ≠ [] ∧ ∃ ex ∈ p.tracks, ex.isrc ≠ [] ∧ ex.isrc = t.isrc) →
          AddTrack p t = .ok { p with tracks := p.tracks ++ [t] }) ∧
    (∀ (p : Playlist) (t t' : Track), p.tracks = [] → t.isrc ≠ [] → t'.isrc = t.isrc →
        ∃ p', AddTrack p t = .ok p' ∧ p'.tracks.length = 1 ∧
          AddTrack p' t' = .error .duplicateISRC) := by
  refine ⟨fun p t => ?_, fun p t h => ?_, fun p t t' hp ht ht' => ?_⟩
  · unfold AddTrack
    split
    · rename_i h
      simp only [List.any_eq_true, decide_eq_true_eq] at h
      simp only [true_iff]
      exact h
    · rename_i h
      simp only [List.any_eq_true, decide_eq_true_eq] at h
      simp only [reduceCtorEq, false_iff]
      exact h
  · unfold AddTrack
    split
    · rename_i hc
      simp only [List.any_eq_true, decide_eq_true_eq] at hc
      exact absurd hc h
    · rfl
  · refine ⟨{ p with tracks := p.tracks ++ [t] }, ?_, ?_, ?_⟩
    · unfold AddTrack
      split
      · rename_i hc
        simp only [List.any_eq_true, decide_eq_true_eq, hp] at hc
        simp at hc
      · rfl
    · simp [hp]
    · unfold AddTrack
      split
      · rfl
      · rename_i hc
        simp only [List.any_eq_true, decide_eq_true_eq] at hc
        exact absurd ⟨ht' ▸ ht, t, by simp [hp], ht, ht'.symm⟩ hc

/-- Witness for C4 at a concrete playlist and tracks. -/
theorem C4_witness :
    ∃ p', AddTrack ⟨strChars "p1", strChars "mix1", []⟩
            ⟨strChars "id1", [], [], [], [], 0, strChars "USRC1", {}⟩ = .ok p' ∧
          p'.tracks.length = 1 ∧
          AddTrack p' ⟨strChars "id2", [], [], [], [], 0, strChars "USRC1", {}⟩ =
            .error .duplicateISRC :=
  C4_addTrack_duplicate_code.2.2
    ⟨strChars "p1", strChars "mix1", []⟩
    ⟨strChars "id1", [], [], [], [], 0, strChars "USRC1", {}⟩
    ⟨strChars "id2", [], [], [], [], 0, strChars "USRC1", {}⟩
    rfl (by simp [strChars]) rfl

/-- C10: `AddTrack` never inspects track IDs — a track with an empty ISRC
is always appended, even when the identical track is already present, so
the same catalog track can occur twice; an error implies the incoming
ISRC was non-empty. -/
theorem C10_addTrack_ignores_ids :
    (∀ (p : Playlist) (t : Track), t.isrc = [] →
        AddTrack p t = .ok { p with tracks := p.tracks ++ [t] }) ∧
    (∀ (p : Playlist) (t : Track) (e : DomainErr),
        AddTrack p t = .error e → t.isrc ≠ []) ∧
    (∀ (p : Playlist) (t : Track), t.isrc = [] → t ∈ p.tracks →
        ∃ p', AddTrack p t = .ok p' ∧
          p'.tracks.count t = p.tracks.count t + 1) := by
  have key : ∀ (p : Playlist) (t : Track), t.isrc = [] →
      AddTrack p t = .ok { p with tracks := p.tracks ++ [t] } := by
    intro p t h
    unfold AddTrack
    split
    · rename_i hc
      exact absurd h hc.1
    · rfl
  refine ⟨key, fun p t e he => ?_, fun p t h hmem => ?_⟩
  · intro hisrc
    rw [key p t hisrc] at he
    exact Except.noConfusion he
  · exact ⟨{ p with tracks := p.tracks ++ [t] }, key p t h, by simp⟩

/-- Witness for C10: an empty-ISRC track already in the playlist is
appended again, giving two copies. -/
theorem C10_witness :
    ∃ p', AddTrack ⟨strChars "p1", strChars "mix1",
            [⟨strChars "id1", [], [], [], [], 0, [], {}⟩]⟩
            ⟨strChars "id1", [], [], [], [], 0, [], {}⟩ = .ok p' ∧
          p'.tracks.count ⟨strChars "id1", [], [], [], [], 0, [], {}⟩ =
            List.count ⟨strChars "id1", [], [], [], [], 0, [], {}⟩
              [(⟨strChars "id1", [], [], [], [], 0, [], {}⟩ : Track)] + 1 :=
  C10_addTrack_ignores_ids.2.2
    ⟨strChars "p1", strChars "mix1", [⟨strChars "id1", [], [], [], [], 0, [], {}⟩]⟩
    ⟨strChars "id1", [], [], [], [], 0, [], {}⟩ rfl (by simp)

/-! ### Constraint filtering: claim C5 -/

/-- C5: an absent constraint or the `[0,0]` sentinel always passes;
otherwise the check is the inclusive range test — 0.3 is rejected by
`{min: 0.5, max: 0.9}` while both boundary values pass — and the overall
filter is the conjunction of the four per-feature checks. -/
theorem C5_constraint_semantics :
    (∀ v : ℚ, checkConstraint v none = true) ∧
    (∀ (v : ℚ) (c : VibeConstraint), c.min = 0 → c.max = 0 →
        checkConstraint v (some c) = true) ∧
    (∀ (v : ℚ) (c : VibeConstraint), ¬ (c.min = 0 ∧ c.max = 0) →
        (checkConstraint v (some c) = true ↔ c.min ≤ v ∧ v ≤ c.max)) ∧
    (∀ (f : AudioFeatures) (i : IntentObject),
        matchesConstraints f i =
          (checkConstraint f.energy i.vibeConstraints.energy &&
           checkConstraint f.valence i.vibeConstraints.valence &&
           checkConstraint f.acousticness i.vibeConstraints.acoustic &&
           checkConstraint f.instrumentalness i.vibeConstraints.instrument)) ∧
    checkConstraint (3/10) (some ⟨0, 1/2, 9/10, []⟩) = false ∧
    checkConstraint (1/2) (some ⟨0, 1/2, 9/10, []⟩) = true ∧
    checkConstraint (9/10) (some ⟨0, 1/2, 9/10, []⟩) = true ∧
    checkConstraint (3/10) (some ⟨0, 0, 0, []⟩) = true := by
  refine ⟨fun v => rfl, fun v c h1 h2 => ?_, fun v c h => ?_, fun f i => ?_,
    ?_, ?_, ?_, ?_⟩
  · simp [checkConstraint, h1, h2]
  · simp [checkConstraint, h]
  · unfold matchesConstraints
    cases h1 : checkConstraint f.energy i.vibeConstraints.energy <;>
      cases h2 : checkConstraint f.valence i.vibeConstraints.valence <;>
        cases h3 : checkConstraint f.acousticness i.vibeConstraints.acoustic <;>
          cases h4 : checkConstraint f.instrumentalness i.vibeConstraints.instrument <;>
            simp [h1, h2, h3, h4]
  · norm_num [checkConstraint]
  · norm_num [checkConstraint]
  · norm_num [checkConstraint]
  · norm_num [checkConstraint]

/-- Witness for C5 at the claim's concrete boundary inputs. -/
theorem C5_witness :
    (checkConstraint (3/10) (some ⟨0, 1/2, 9/10, []⟩) = true ↔
      (1:ℚ)/2 ≤ 3/10 ∧ (3:ℚ)/10 ≤ 9/10) ∧
    checkConstraint (42/100) (some ⟨0, 0, 0, []⟩) = true :=
  ⟨C5_constraint_semantics.2.2.1 (3/10) ⟨0, 1/2, 9/10, []⟩ (by norm_num),
   C5_constraint_semantics.2.1 (42/100) ⟨0, 0, 0, []⟩ rfl rfl⟩

/-! ### Deterministic fallback features and substitution: claim C2 -/

theorem rngFloat64_nonneg (seed k : Nat) : 0 ≤ rngFloat64 seed k := by
  unfold rngFloat64
  positivity

theorem rngFloat64_lt_one (seed k : Nat) : rngFloat64 seed k < 1 := by
  unfold rngFloat64
  rw [div_lt_one (by norm_num)]
  have h : Nat.iterate rngStep (k + 1) seed < 18446744073709551616 := by
    rw [Function.iterate_succ_apply']
    unfold rngStep
    exact Nat.mod_lt _ (by norm_num)
  exact_mod_cast h

theorem betweenDraw_bounds {lo hi d : ℚ} (h0 : 0 ≤ d) (h1 : d < 1) (hle : lo ≤ hi) :
    lo ≤ betweenDraw lo hi d ∧ betweenDraw lo hi d ≤ hi := by
  unfold betweenDraw
  constructor
  · nlinarith
  · nlinarith

/-- C2: the fallback feature generator is a pure function of the track ID
(identical results on every call); each of the five unit-range features
lies in `[0.1, 0.9]` and tempo in `[60, 180]`; `GetTrack` substitutes the
generated features exactly on a 403/404 response or an all-zero payload,
and propagates every other feature-fetch failure as an error. -/
theorem C2_deterministic_features :
    (∀ id : Str, generateDeterministicFeatures id = generateDeterministicFeatures id) ∧
    (∀ id : Str,
        (1/10 ≤ (generateDeterministicFeatures id).danceability ∧
          (generateDeterministicFeatures id).danceability ≤ 9/10) ∧
        (1/10 ≤ (generateDeterministicFeatures id).energy ∧
          (generateDeterministicFeatures id).energy ≤ 9/10) ∧
        (1/10 ≤ (generateDeterministicFeatures id).valence ∧
          (generateDeterministicFeatures id).valence ≤ 9/10) ∧
        (1/10 ≤ (generateDeterministicFeatures id).acousticness ∧
          (generateDeterministicFeatures id).acousticness ≤ 9/10) ∧
        (1/10 ≤ (generateDeterministicFeatures id).instrumentalness ∧
          (generateDeterministicFeatures id).instrumentalness ≤ 9/10) ∧
        (60 ≤ (generateDeterministicFeatures id).tempo ∧
          (generateDeterministicFeatures id).tempo ≤ 180)) ∧
    (∀ (t : SpotifyTrackData) (b : Option SpotifyAudioFeaturesData),
        GetTrack (.ok t) (.http 403 b) =
          .ok { mapTrackToDomain t none with
                features := generateDeterministicFeatures t.id }) ∧
    (∀ (t : SpotifyTrackData) (b : Option SpotifyAudioFeaturesData),
        GetTrack (.ok t) (.http 404 b) =
          .ok { mapTrackToDomain t none with
                features := generateDeterministicFeatures t.id }) ∧
    (∀ (t : SpotifyTrackData) (f : SpotifyAudioFeaturesData),
        allFeaturesZero f = true →
        GetTrack (.ok t) (.http 200 (some f)) =
          .ok { mapTrackToDomain t none with
                features := generateDeterministicFeatures t.id }) ∧
    (∀ (t : SpotifyTrackData) (f : SpotifyAudioFeaturesData),
        allFeaturesZero f = false →
        GetTrack (.ok t) (.http 200 (some f)) = .ok (mapTrackToDomain t (some f))) ∧
    (∀ (t : SpotifyTrackData) (s : Nat) (b : Option SpotifyAudioFeaturesData),
        s ≠ 200 → s ≠ 403 → s ≠ 404 →
        GetTrack (.ok t) (.http s b) = .error (.featuresStatus s)) ∧
    (∀ t : SpotifyTrackData,
        GetTrack (.ok t) (.http 200 none) = .error .featuresDecode) ∧
    (∀ t : SpotifyTrackData,
        GetTrack (.ok t) .transportErr = .error .featuresRequest) := by
  have bounds : ∀ seed k, 1/10 ≤ betweenDraw (1/10) (9/10) (rngFloat64 seed k) ∧
      betweenDraw (1/10) (9/10) (rngFloat64 seed k) ≤ 9/10 :=
    fun seed k => betweenDraw_bounds (rngFloat64_nonneg seed k)
      (rngFloat64_lt_one seed k) (by norm_num)
  have boundsT : ∀ seed k, 60 ≤ betweenDraw 60 180 (rngFloat64 seed k) ∧
      betweenDraw 60 180 (rngFloat64 seed k) ≤ 180 :=
    fun seed k => betweenDraw_bounds (rngFloat64_nonneg seed k)
      (rngFloat64_lt_one seed k) (by norm_num)
  refine ⟨fun _ => rfl, fun id => ?_, fun t b => rfl, fun t b => rfl,
    fun t f hz => ?_, fun t f hz => ?_, fun t s b h200 h403 h404 => ?_,
    fun t => rfl, fun t => rfl⟩
  · exact ⟨bounds _ 2, bounds _ 0, bounds _ 1, bounds _ 3, bounds _ 4, boundsT _ 5⟩
  · simp [GetTrack, hz]
  · simp [GetTrack, hz]
  · simp [GetTrack, h200, h403, h404]

/-- Witness for C2: a 500-status response at a concrete track propagates
as an error rather than being substituted. -/
theorem C2_witness :
    GetTrack (.ok ⟨strChars "trk", [], 0, [], [], [], []⟩) (.http 500 none) =
      .error (.featuresStatus 500) ∧
    GetTrack (.ok ⟨strChars "trk", [], 0, [], [], [], []⟩)
        (.http 200 (some ⟨0, 0, 0, 0, 0, 0⟩)) =
      .ok { mapTrackToDomain ⟨strChars "trk", [], 0, [], [], [], []⟩ none with
            features := generateDeterministicFeatures (strChars "trk") } :=
  ⟨C2_deterministic_features.2.2.2.2.2.2.1 ⟨strChars "trk", [], 0, [], [], [], []⟩
      500 none (by decide) (by decide) (by decide),
   C2_deterministic_features.2.2.2.2.1 ⟨strChars "trk", [], 0, [], [], [], []⟩
      ⟨0, 0, 0, 0, 0, 0⟩ (by norm_num [allFeaturesZero])⟩

/-! ### Intent pipeline counting: claim C6 -/

theorem dedupById_congr {ts : List Track} {s1 s2 : List Str}
    (h : ∀ x, x ∈ s1 ↔ x ∈ s2) : dedupById ts s1 = dedupById ts s2 := by
  induction ts generalizing s1 s2 with
  | nil => rfl
  | cons t ts ih =>
      unfold dedupById
      by_cases hm : t.id ∈ s1
      · rw [if_pos hm, if_pos ((h t.id).mp hm)]
        exact ih h
      · rw [if_neg hm, if_neg (fun hc => hm ((h t.id).mpr hc))]
        refine congrArg _ (ih fun x => ?_)
        simp only [List.mem_cons]
        exact or_congr Iff.rfl (h x)

theorem mem_map_dedupById (l : List Track) (seen : List Str) (x : Str) :
    x ∈ (dedupById l seen).map (·.id) ↔ x ∈ l.map (·.id) ∧ x ∉ seen := by
  induction l generalizing seen with
  | nil => simp [dedupById]
  | cons t ts ih =>
      unfold dedupById
      by_cases hm : t.id ∈ seen
      · rw [if_pos hm]
        rw [ih]
        simp only [List.map_cons, List.mem_cons]
        constructor
        · exact fun ⟨h1, h2⟩ => ⟨Or.inr h1, h2⟩
        · rintro ⟨h1 | h1, h2⟩
          · exact absurd (h1 ▸ hm) h2
          · exact ⟨h1, h2⟩
      · rw [if_neg hm]
        simp only [List.map_cons, List.mem_cons, ih]
        constructor
        · rintro (h | ⟨h1, h2⟩)
          · exact ⟨Or.inl h, h ▸ hm⟩
          · exact ⟨Or.inr h1, fun hc => h2 (Or.inr hc)⟩
        · rintro ⟨h1 | h1, h2⟩
          · exact Or.inl h1
          · by_cases he : x = t.id
            · exact Or.inl he
            · exact Or.inr ⟨h1, fun hc => hc.elim he h2⟩

theorem nodup_map_dedupById (l : List Track) (seen : List Str) :
    ((dedupById l seen).map (·.id)).Nodup := by
  induction l generalizing seen with
  | nil => simp [dedupById]
  | cons t ts ih =>
      unfold dedupById
      by_cases hm : t.id ∈ seen
      · rw [if_pos hm]; exact ih seen
      · rw [if_neg hm]
        simp only [List.map_cons, List.nodup_cons]
        refine ⟨fun hc => ?_, ih _⟩
        exact ((mem_map_dedupById ts (t.id :: seen) t.id).mp hc).2 (List.mem_cons_self _ _)

theorem dedupById_append (l1 l2 : List Track) (seen : List Str) :
    dedupById (l1 ++ l2) seen =
      dedupById l1 seen ++
      dedupById l2 (seen ++ (dedupById l1 seen).map (·.id)) := by
  induction l1 generalizing seen with
  | nil => simp [dedupById]
  | cons t ts ih =>
      by_cases hm : t.id ∈ seen
      · simp only [List.cons_append, dedupById, if_pos hm]
        exact ih seen
      · simp only [List.cons_append, dedupById, if_neg hm, List.map_cons]
        rw [show ts.append l2 = ts ++ l2 from rfl]
        rw [ih (t.id :: seen)]
        have hcongr : dedupById l2 ((t.id :: seen) ++ (dedupById ts (t.id :: seen)).map (·.id))
            = dedupById l2 (seen ++ t.id :: (dedupById ts (t.id :: seen)).map (·.id)) := by
          apply dedupById_congr
          intro x
          simp only [List.mem_cons, List.mem_append]
          tauto
        rw [hcongr]

theorem foldl_dedupStep (ts : List Track) (seen : List Str) (acc : List Track)
    (hinv : seen = acc.map (·.id)) :
    (ts.foldl dedupStep (seen, acc)).2 = acc ++ dedupById ts seen ∧
    (ts.foldl dedupStep (seen, acc)).1 =
      ((ts.foldl dedupStep (seen, acc)).2).map (·.id) := by
  induction ts generalizing seen acc with
  | nil => simpa [dedupById] using hinv
  | cons t ts ih =>
      simp only [List.foldl_cons]
      by_cases hm : t.id ∈ seen
      · have hstep : dedupStep (seen, acc) t = (seen, acc) := by
          simp [dedupStep, hm]
        rw [hstep]
        have hd : dedupById (t :: ts) seen = dedupById ts seen := by
          simp only [dedupById, if_pos hm]
        rw [hd]
        exact ih seen acc hinv
      · have hstep : dedupStep (seen, acc) t = (seen ++ [t.id], acc ++ [t]) := by
          simp [dedupStep, hm]
        rw [hstep]
        have hinv' : seen ++ [t.id] = (acc ++ [t]).map (·.id) := by
          simp [hinv]
        have hrec := ih (seen ++ [t.id]) (acc ++ [t]) hinv'
        refine ⟨?_, hrec.2⟩
        rw [hrec.1]
        have hcongr : dedupById ts (seen ++ [t.id]) = dedupById ts (t.id :: seen) :=
          dedupById_congr (by intro x; simp [or_comm])
        rw [hcongr]
        simp only [dedupById, if_neg hm]
        simp

theorem fetchLoop_eq_dedup (fetch : Str → Except Unit (List Track))
    (artists : List Str) (seen : List Str) (acc : List Track)
    (hinv : seen = acc.map (·.id)) :
    (fetchLoop fetch artists (seen, acc)).2 =
      acc ++ dedupById (successfulTracks fetch artists) seen := by
  induction artists generalizing seen acc with
  | nil => simp [fetchLoop, successfulTracks, dedupById]
  | cons a rest ih =>
      cases hf : fetch a with
      | error e =>
          have hskip : fetchLoop fetch (a :: rest) (seen, acc) =
              fetchLoop fetch rest (seen, acc) := by
            simp [fetchLoop, hf]
          have hsucc : successfulTracks fetch (a :: rest) = successfulTracks fetch rest := by
            simp [successfulTracks, hf, Except.toOption]
          rw [hskip, hsucc]
          exact ih seen acc hinv
      | ok ts =>
          have hconc : successfulTracks fetch (a :: rest) =
              ts ++ successfulTracks fetch rest := by
            simp [successfulTracks, hf, Except.toOption]
          have hfold := foldl_dedupStep ts seen acc hinv
          have hpair : ts.foldl dedupStep (seen, acc) =
              ((acc ++ dedupById ts seen).map (·.id), acc ++ dedupById ts seen) := by
            have h2 := hfold.2
            rw [hfold.1] at h2
            exact Prod.ext h2 hfold.1
          have hstep : fetchLoop fetch (a :: rest) (seen, acc) =
              fetchLoop fetch rest (ts.foldl dedupStep (seen, acc)) := by
            simp [fetchLoop, hf]
          rw [hstep, hpair, hconc, dedupById_append]
          rw [ih ((acc ++ dedupById ts seen).map (·.id)) (acc ++ dedupById ts seen) rfl]
          rw [List.map_append, ← hinv, List.append_assoc]

theorem successfulTracks_filter (fetch : Str → Except Unit (List Track))
    (artists : List Str) :
    successfulTracks fetch artists =
      successfulTracks fetch (artists.filter (fetchOK fetch)) := by
  induction artists with
  | nil => rfl
  | cons a rest ih =>
      cases hf : fetch a with
      | error e =>
          have h1 : fetchOK fetch a = false := by simp [fetchOK, hf]
          simp only [successfulTracks, List.filter_cons, h1, Bool.false_eq_true,
            if_false, List.filterMap_cons, hf, Except.toOption]
          exact ih
      | ok ts =>
          have h1 : fetchOK fetch a = true := by simp [fetchOK, hf]
          have ih' := ih
          simp only [successfulTracks, Except.toOption] at ih'
          simp only [successfulTracks, List.filter_cons, h1, if_true,
            List.filterMap_cons, hf, Except.toOption, List.flatten_cons]
          rw [ih']

/-- C6: on a successful run, `tracksEvaluated` is the number of distinct
track IDs across all successful artist fetches (first occurrence wins,
counted before membership/constraint filtering), `tracksAdded` counts the
deduplicated tracks that are new to the playlist and satisfy every set
constraint, a failing artist fetch is skipped without failing the run,
and the 5-fetched/2-present/no-constraints scenario yields
`tracksEvaluated = 5` and `tracksAdded = 3`. -/
theorem C6_process_intent_counts :
    (∀ (intent : IntentObject) (playlist : Playlist)
        (fetch : Str → Except Unit (List Track)),
      ∃ r, ProcessIntent true (.ok intent) (.ok playlist) fetch (.ok ()) = .ok r ∧
        r.tracksEvaluated =
          (dedupById (successfulTracks fetch intent.artists) []).length ∧
        r.tracksEvaluated =
          ((successfulTracks fetch intent.artists).map (·.id)).toFinset.card ∧
        r.tracksAdded =
          ((dedupById (successfulTracks fetch intent.artists) []).filter
            (fun t => ¬ t.id ∈ playlist.tracks.map (·.id) ∧
              matchesConstraints t.features intent)).length ∧
        successfulTracks fetch intent.artists =
          successfulTracks fetch (intent.artists.filter (fetchOK fetch))) ∧
    (∃ r, ProcessIntent true (.ok exIntent) (.ok exPlaylist) exFetch (.ok ()) = .ok r ∧
      r.tracksEvaluated = 5 ∧ r.tracksAdded = 3) := by
  have main : ∀ (intent : IntentObject) (playlist : Playlist)
      (fetch : Str → Except Unit (List Track)),
      ∃ r, ProcessIntent true (.ok intent) (.ok playlist) fetch (.ok ()) = .ok r ∧
        r.tracksEvaluated =
          (dedupById (successfulTracks fetch intent.artists) []).length ∧
        r.tracksEvaluated =
          ((successfulTracks fetch intent.artists).map (·.id)).toFinset.card ∧
        r.tracksAdded =
          ((dedupById (successfulTracks fetch intent.artists) []).filter
            (fun t => ¬ t.id ∈ playlist.tracks.map (·.id) ∧
              matchesConstraints t.features intent)).length ∧
        successfulTracks fetch intent.artists =
          successfulTracks fetch (intent.artists.filter (fetchOK fetch)) := by
    intro intent playlist fetch
    have hAll : (fetchLoop fetch intent.artists ([], [])).2 =
        dedupById (successfulTracks fetch intent.artists) [] := by
      simpa using fetchLoop_eq_dedup fetch intent.artists [] [] rfl
    have hcard : (dedupById (successfulTracks fetch intent.artists) []).length =
        ((successfulTracks fetch intent.artists).map (·.id)).toFinset.card := by
      have hnd := nodup_map_dedupById (successfulTracks fetch intent.artists) []
      have hset : ((dedupById (successfulTracks fetch intent.artists) []).map
          (·.id)).toFinset = ((successfulTracks fetch intent.artists).map
          (·.id)).toFinset := by
        ext x
        simp only [List.mem_toFinset]
        rw [mem_map_dedupById]
        simp
      rw [← hset, List.toFinset_card_of_nodup hnd, List.length_map]
    refine ⟨{ intent := intent,
              tracksEvaluated := (dedupById (successfulTracks fetch intent.artists) []).length,
              tracksAdded := ((dedupById (successfulTracks fetch intent.artists) []).filter
                (fun t => ¬ t.id ∈ playlist.tracks.map (·.id) ∧
                  matchesConstraints t.features intent)).length,
              summaryFound := (dedupById (successfulTracks fetch intent.artists) []).length,
              summaryAdded := ((dedupById (successfulTracks fetch intent.artists) []).filter
                (fun t => ¬ t.id ∈ playlist.tracks.map (·.id) ∧
                  matchesConstraints t.features intent)).length,
              summaryArtist := summaryArtistNames intent.artists },
            ?_, rfl, hcard, rfl, successfulTracks_filter fetch intent.artists⟩
    unfold ProcessIntent
    simp [hAll]
  refine ⟨main, ?_⟩
  obtain ⟨r, hr, h1, _, h3, _⟩ := main exIntent exPlaylist exFetch
  refine ⟨r, hr, ?_, ?_⟩
  · rw [h1]
    decide
  · rw [h3]
    decide

/-! ### Normalizer idempotence: claim C9 -/

theorem toLowerChar_not_upper (c : Nat) :
    ¬ (65 ≤ toLowerChar c ∧ toLowerChar c ≤ 90) := by
  unfold toLowerChar
  split
  · omega
  · omega

theorem toLowerStr_eq_self {s : Str} (h : ∀ c ∈ s, ¬ (65 ≤ c ∧ c ≤ 90)) :
    toLowerStr s = s := by
  unfold toLowerStr
  induction s with
  | nil => rfl
  | cons c rest ih =>
      have hc := h c (List.mem_cons_self _ _)
      simp only [List.map_cons]
      rw [show toLowerChar c = c from by unfold toLowerChar; rw [if_neg hc]]
      rw [ih (fun d hd => h d (List.mem_cons_of_mem _ hd))]

theorem mem_toLowerStr_not_upper {s : Str} {c : Nat} (h : c ∈ toLowerStr s) :
    ¬ (65 ≤ c ∧ c ≤ 90) := by
  obtain ⟨d, _, rfl⟩ := List.mem_map.mp h
  exact toLowerChar_not_upper d

theorem mem_cleanSeparators {s : Str} {b : Bool} {c : Nat}
    (h : c ∈ cleanSeparators s b) :
    c = 32 ∨ (c ∈ s ∧ (isLetterChar c ∨ isDigitChar c)) := by
  induction s generalizing b with
  | nil => simp [cleanSeparators] at h
  | cons d rest ih =>
      unfold cleanSeparators at h
      split at h
      · rename_i hd
        rcases List.mem_cons.mp h with rfl | h'
        · exact Or.inr ⟨List.mem_cons_self _ _, hd⟩
        · rcases ih h' with h32 | ⟨hm, hc⟩
          · exact Or.inl h32
          · exact Or.inr ⟨List.mem_cons_of_mem _ hm, hc⟩
      · split at h
        · rcases ih h with h32 | ⟨hm, hc⟩
          · exact Or.inl h32
          · exact Or.inr ⟨List.mem_cons_of_mem _ hm, hc⟩
        · rcases List.mem_cons.mp h with rfl | h'
          · exact Or.inl rfl
          · rcases ih h' with h32 | ⟨hm, hc⟩
            · exact Or.inl h32
            · exact Or.inr ⟨List.mem_cons_of_mem _ hm, hc⟩

theorem mem_stripBracketedSegments {s : Str} {d : Nat} {c : Nat}
    (h : c ∈ stripBracketedSegments s d) : c ∈ s := by
  induction s generalizing d with
  | nil => simp [stripBracketedSegments] at h
  | cons e rest ih =>
      unfold stripBracketedSegments at h
      split at h
      · exact List.mem_cons_of_mem _ (ih h)
      · split at h
        · exact List.mem_cons_of_mem _ (ih h)
        · split at h
          · rcases List.mem_cons.mp h with rfl | h'
            · exact List.mem_cons_self _ _
            · exact List.mem_cons_of_mem _ (ih h')
          · exact List.mem_cons_of_mem _ (ih h)

theorem mem_fieldsAux {s cur : Str} {t : Str}
    (hcur : ∀ c ∈ cur, isSpaceChar c = false)
    (ht : t ∈ fieldsAux s cur) :
    t ≠ [] ∧ ∀ c ∈ t, isSpaceChar c = false ∧ (c ∈ s ∨ c ∈ cur) := by
  induction s generalizing cur with
  | nil =>
      unfold fieldsAux at ht
      split at ht
      · simp at ht
      · rename_i hne
        rcases List.mem_singleton.mp ht with rfl
        refine ⟨by simpa using hne, fun c hc => ?_⟩
        rw [List.mem_reverse] at hc
        exact ⟨hcur c hc, Or.inr hc⟩
  | cons d rest ih =>
      unfold fieldsAux at ht
      split at ht
      · rename_i hd
        split at ht
        · obtain ⟨h1, h2⟩ := @ih [] (by simp) ht
          exact ⟨h1, fun c hc => ⟨(h2 c hc).1,
            Or.inl (List.mem_cons_of_mem _ ((h2 c hc).2.resolve_right (by simp)))⟩⟩
        · rcases List.mem_cons.mp ht with rfl | ht'
          · rename_i hne
            refine ⟨by simpa using hne, fun c hc => ?_⟩
            rw [List.mem_reverse] at hc
            exact ⟨hcur c hc, Or.inr hc⟩
          · obtain ⟨h1, h2⟩ := @ih [] (by simp) ht'
            exact ⟨h1, fun c hc => ⟨(h2 c hc).1,
              Or.inl (List.mem_cons_of_mem _ ((h2 c hc).2.resolve_right (by simp)))⟩⟩
      · rename_i hd
        obtain ⟨h1, h2⟩ := @ih (d :: cur)
          (by
            intro c hc
            rcases List.mem_cons.mp hc with rfl | hc'
            · simpa using hd
            · exact hcur c hc') ht
        refine ⟨h1, fun c hc => ?_⟩
        obtain ⟨hs, hmem⟩ := h2 c hc
        refine ⟨hs, ?_⟩
        rcases hmem with hm | hm
        · exact Or.inl (List.mem_cons_of_mem _ hm)
        · rcases List.mem_cons.mp hm with rfl | hm'
          · exact Or.inl (List.mem_cons_self _ _)
          · exact Or.inr hm'

theorem mem_fields {s : Str} {t : Str} (ht : t ∈ fields s) :
    t ≠ [] ∧ ∀ c ∈ t, isSpaceChar c = false ∧ c ∈ s := by
  obtain ⟨h1, h2⟩ := @mem_fieldsAux s [] t (by simp) ht
  exact ⟨h1, fun c hc => ⟨(h2 c hc).1, ((h2 c hc).2).resolve_right (by simp)⟩⟩

theorem fieldsAux_append_token {t : Str} (rest cur : Str)
    (h : ∀ c ∈ t, isSpaceChar c = false) :
    fieldsAux (t ++ rest) cur = fieldsAux rest (t.reverse ++ cur) := by
  induction t generalizing cur with
  | nil => simp
  | cons c t' ih =>
      simp only [List.cons_append]
      unfold fieldsAux
      rw [if_neg (by simp [h c (List.mem_cons_self _ _)])]
      rw [ih (c :: cur) (fun d hd => h d (List.mem_cons_of_mem _ hd))]
      simp only [List.reverse_cons, List.append_assoc, List.singleton_append]
      cases rest <;> rfl

theorem fields_joinSpace (ts : List Str)
    (h : ∀ t ∈ ts, t ≠ [] ∧ ∀ c ∈ t, isSpaceChar c = false) :
    fields (joinSpace ts) = ts := by
  induction ts with
  | nil => rfl
  | cons t ts ih =>
      obtain ⟨hne, hns⟩ := h t (List.mem_cons_self _ _)
      cases ts with
      | nil =>
          show fields (joinSpace [t]) = [t]
          unfold joinSpace fields
          rw [show t = t ++ [] from (List.append_nil t).symm]
          rw [fieldsAux_append_token [] [] (by simpa using hns)]
          unfold fieldsAux
          rw [if_neg (by simpa using hne)]
          simp
      | cons t' ts' =>
          show fields (t ++ 32 :: joinSpace (t' :: ts')) = t :: t' :: ts'
          unfold fields
          rw [fieldsAux_append_token _ [] hns]
          unfold fieldsAux
          rw [if_pos (by decide)]
          rw [if_neg (by simpa using hne)]
          simp only [List.append_nil, List.reverse_reverse]
          rw [show fieldsAux (joinSpace (t' :: ts')) [] = fields (joinSpace (t' :: ts'))
            from rfl]
          rw [ih (fun u hu => h u (List.mem_cons_of_mem _ hu))]

theorem cleanSeparators_append_token {t : Str} (rest : Str) (b : Bool)
    (hne : t ≠ [])
    (h : ∀ c ∈ t, (isLetterChar c ∨ isDigitChar c : Bool) = true) :
    cleanSeparators (t ++ rest) b = t ++ cleanSeparators rest false := by
  induction t generalizing b with
  | nil => exact absurd rfl hne
  | cons c t' ih =>
      simp only [List.cons_append]
      unfold cleanSeparators
      rw [if_pos (by simpa using h c (List.mem_cons_self _ _))]
      cases t' with
      | nil =>
          simp only [List.nil_append, List.cons.injEq, true_and]
          cases rest <;> rfl
      | cons d t'' =>
          rw [ih false (by simp) (fun e he => h e (List.mem_cons_of_mem _ he))]
          simp only [List.cons_append, List.cons.injEq, true_and]
          cases rest <;> rfl

theorem cleanSeparators_joinSpace (ts : List Str) (b : Bool)
    (h : ∀ t ∈ ts, t ≠ [] ∧ ∀ c ∈ t, (isLetterChar c ∨ isDigitChar c : Bool) = true) :
    cleanSeparators (joinSpace ts) b = joinSpace ts := by
  induction ts generalizing b with
  | nil => rfl
  | cons t ts ih =>
      obtain ⟨hne, halnum⟩ := h t (List.mem_cons_self _ _)
      cases ts with
      | nil =>
          show cleanSeparators t b = t
          rw [show t = t ++ [] from (List.append_nil t).symm,
            cleanSeparators_append_token [] b (by simpa using hne) (by simpa using halnum)]
          rfl
      | cons t' ts' =>
          show cleanSeparators (t ++ 32 :: joinSpace (t' :: ts')) b =
            t ++ 32 :: joinSpace (t' :: ts')
          rw [cleanSeparators_append_token _ b hne halnum]
          unfold cleanSeparators
          rw [if_neg (by decide)]
          rw [if_neg (by simp)]
          rw [ih true (fun u hu => h u (List.mem_cons_of_mem _ hu))]

theorem stripBracketedSegments_eq_self {s : Str}
    (h : ∀ c ∈ s, c ≠ 40 ∧ c ≠ 41 ∧ c ≠ 91 ∧ c ≠ 93) :
    stripBracketedSegments s 0 = s := by
  induction s with
  | nil => rfl
  | cons c rest ih =>
      obtain ⟨h40, h41, h91, h93⟩ := h c (List.mem_cons_self _ _)
      unfold stripBracketedSegments
      rw [if_neg (by simp [h40, h91])]
      rw [if_neg (by simp [h41, h93])]
      rw [if_pos rfl]
      rw [ih (fun d hd => h d (List.mem_cons_of_mem _ hd))]

theorem mem_joinSpace {ts : List Str} {c : Nat} (h : c ∈ joinSpace ts) :
    c = 32 ∨ ∃ t ∈ ts, c ∈ t := by
  induction ts with
  | nil => simp [joinSpace] at h
  | cons t ts ih =>
      cases ts with
      | nil =>
          exact Or.inr ⟨t, List.mem_cons_self _ _, by simpa [joinSpace] using h⟩
      | cons t' ts' =>
          rw [show joinSpace (t :: t' :: ts') = t ++ 32 :: joinSpace (t' :: ts')
            from rfl] at h
          rcases List.mem_append.mp h with hm | hm
          · exact Or.inr ⟨t, List.mem_cons_self _ _, hm⟩
          · rcases List.mem_cons.mp hm with rfl | hm'
            · exact Or.inl rfl
            · rcases ih hm' with h32 | ⟨u, hu, hc⟩
              · exact Or.inl h32
              · exact Or.inr ⟨u, List.mem_cons_of_mem _ hu, hc⟩

theorem joinSpace_head_not_space {ts : List Str} {c : Nat}
    (h : ∀ t ∈ ts, t ≠ [] ∧ ∀ d ∈ t, isSpaceChar d = false)
    (hh : (joinSpace ts).head? = some c) : isSpaceChar c = false := by
  induction ts with
  | nil => simp [joinSpace] at hh
  | cons t ts ih =>
      obtain ⟨hne, hns⟩ := h t (List.mem_cons_self _ _)
      cases t with
      | nil => exact absurd rfl hne
      | cons d t' =>
          cases ts with
          | nil =>
              rw [show joinSpace [d :: t'] = d :: t' from rfl] at hh
              simp only [List.head?_cons, Option.some.injEq] at hh
              exact hh ▸ hns d (List.mem_cons_self _ _)
          | cons u us =>
              rw [show joinSpace ((d :: t') :: u :: us) =
                (d :: t') ++ 32 :: joinSpace (u :: us) from rfl] at hh
              simp only [List.cons_append, List.head?_cons, Option.some.injEq] at hh
              exact hh ▸ hns d (List.mem_cons_self _ _)

theorem joinSpace_ne_nil {ts : List Str} (hts : ts ≠ [])
    (h : ∀ t ∈ ts, t ≠ []) : joinSpace ts ≠ [] := by
  cases ts with
  | nil => exact absurd rfl hts
  | cons t ts =>
      have hne := h t (List.mem_cons_self _ _)
      cases ts with
      | nil => simpa [joinSpace] using hne
      | cons t' ts' =>
          rw [show joinSpace (t :: t' :: ts') = t ++ 32 :: joinSpace (t' :: ts') from rfl]
          simp

theorem joinSpace_getLast_not_space {ts : List Str} {c : Nat}
    (h : ∀ t ∈ ts, t ≠ [] ∧ ∀ d ∈ t, isSpaceChar d = false)
    (hh : (joinSpace ts).getLast? = some c) : isSpaceChar c = false := by
  induction ts with
  | nil => simp [joinSpace] at hh
  | cons t ts ih =>
      obtain ⟨hne, hns⟩ := h t (List.mem_cons_self _ _)
      cases ts with
      | nil =>
          rw [show joinSpace [t] = t from rfl] at hh
          exact hns c (List.mem_of_mem_getLast? hh)
      | cons t' ts' =>
          rw [show joinSpace (t :: t' :: ts') = t ++ 32 :: joinSpace (t' :: ts')
            from rfl] at hh
          rw [List.getLast?_append_cons] at hh
          have hjoin_ne : joinSpace (t' :: ts') ≠ [] :=
            joinSpace_ne_nil (by simp) (fun u hu => (h u (List.mem_cons_of_mem _ hu)).1)
          cases hj : joinSpace (t' :: ts') with
          | nil => exact absurd hj hjoin_ne
          | cons e es =>
              rw [hj, List.getLast?_cons_cons] at hh
              refine ih (fun u hu => h u (List.mem_cons_of_mem _ hu)) ?_
              rw [hj]
              exact hh

theorem trimSpace_eq_self {s : Str}
    (hh : ∀ c, s.head? = some c → isSpaceChar c = false)
    (hl : ∀ c, s.getLast? = some c → isSpaceChar c = false) :
    trimSpace s = s := by
  unfold trimSpace
  have h1 : s.dropWhile (isSpaceChar ·) = s := by
    cases s with
    | nil => rfl
    | cons c rest =>
        rw [List.dropWhile_cons, if_neg]
        simp [hh c rfl]
  rw [h1]
  have h2 : s.reverse.dropWhile (isSpaceChar ·) = s.reverse := by
    cases hrev : s.reverse with
    | nil => rfl
    | cons c rest =>
        have hc : s.getLast? = some c := by
          rw [← List.head?_reverse, hrev]
          rfl
        rw [List.dropWhile_cons, if_neg]
        simp [hl c hc]
  rw [h2, List.reverse_reverse]

theorem mem_trimSpace {s : Str} {c : Nat} (h : c ∈ trimSpace s) : c ∈ s := by
  unfold trimSpace at h
  rw [List.mem_reverse] at h
  have h1 := (List.dropWhile_sublist (isSpaceChar ·)).subset h
  rw [List.mem_reverse] at h1
  exact (List.dropWhile_sublist (isSpaceChar ·)).subset h1

theorem mem_trimBracketedSuffix {s : Str} {c : Nat}
    (h : c ∈ trimBracketedSuffix s) : c ∈ s := by
  simp only [trimBracketedSuffix] at h
  split at h
  · split at h
    · split at h
      · split at h
        · exact mem_trimSpace (List.mem_of_mem_take (mem_trimSpace h))
        · exact h
      · exact h
    · exact h
  · split at h
    · split at h
      · split at h
        · split at h
          · exact mem_trimSpace (List.mem_of_mem_take (mem_trimSpace h))
          · exact h
        · exact h
      · exact h
    · exact h

theorem mem_trimDashSuffix {s : Str} {c : Nat}
    (h : c ∈ trimDashSuffix s) : c ∈ s := by
  simp only [trimDashSuffix] at h
  split at h
  · exact h
  · split at h
    · exact mem_trimSpace (List.mem_of_mem_take (mem_trimSpace h))
    · exact h

theorem stripLoop_succ (fuel : Nat) (t : Str) :
    stripLoop (fuel + 1) t =
      if trimDashSuffix (trimBracketedSuffix t) = t then t
      else stripLoop fuel (trimSpace (trimDashSuffix (trimBracketedSuffix t))) := rfl

theorem mem_stripLoop {fuel : Nat} {t : Str} {c : Nat}
    (h : c ∈ stripLoop fuel t) : c ∈ t := by
  induction fuel generalizing t with
  | zero => exact h
  | succ fuel ih =>
      rw [stripLoop_succ] at h
      split at h
      · exact h
      · exact mem_trimBracketedSuffix (mem_trimDashSuffix (mem_trimSpace (ih h)))

theorem mem_stripCommonSuffixes {s : Str} {c : Nat}
    (h : c ∈ stripCommonSuffixes s) : c ∈ s := by
  unfold stripCommonSuffixes at h
  exact mem_trimSpace (mem_stripLoop h)

theorem mem_of_isPrefixOf_dash {l : Str}
    (h : ([32, 45, 32] : Str).isPrefixOf l = true) : 45 ∈ l := by
  cases l with
  | nil => simp [List.isPrefixOf] at h
  | cons a as =>
      cases as with
      | nil => simp [List.isPrefixOf] at h
      | cons b bs =>
          simp only [List.isPrefixOf, Bool.and_eq_true, beq_iff_eq] at h
          rw [List.mem_cons, List.mem_cons]
          exact Or.inr (Or.inl h.2.1)

theorem lastIndexOfSeq_dash_eq_none {s : Str} (h45 : ¬ 45 ∈ s) :
    lastIndexOfSeq [32, 45, 32] s = none := by
  unfold lastIndexOfSeq
  rw [List.filter_eq_nil_iff.mpr]
  · rfl
  · intro i _
    simp only [Bool.not_eq_true]
    cases hp : ([32, 45, 32] : Str).isPrefixOf (s.drop i) with
    | false => rfl
    | true =>
        exact absurd (List.mem_of_mem_drop (mem_of_isPrefixOf_dash hp)) h45

theorem trimBracketedSuffix_eq_self {s : Str}
    (htrim : trimSpace s = s)
    (h41 : (s : Str).getLast? ≠ some 41) (h93 : s.getLast? ≠ some 93) :
    trimBracketedSuffix s = s := by
  simp only [trimBracketedSuffix, htrim]
  rw [if_neg h41, if_neg h93]

theorem trimDashSuffix_eq_self {s : Str}
    (htrim : trimSpace s = s) (h45 : ¬ 45 ∈ s) :
    trimDashSuffix s = s := by
  simp only [trimDashSuffix, htrim, lastIndexOfSeq_dash_eq_none h45]

theorem stripCommonSuffixes_eq_self {s : Str}
    (htrim : trimSpace s = s)
    (h41 : s.getLast? ≠ some 41) (h93 : s.getLast? ≠ some 93) (h45 : ¬ 45 ∈ s) :
    stripCommonSuffixes s = s := by
  unfold stripCommonSuffixes
  rw [htrim]
  simp only [stripLoop, trimBracketedSuffix_eq_self htrim h41 h93,
    trimDashSuffix_eq_self htrim h45, if_pos]

theorem alnum_char_props {c : Nat}
    (h : isLetterChar c = true ∨ isDigitChar c = true)
    (_hup : ¬ (65 ≤ c ∧ c ≤ 90)) :
    isSpaceChar c = false ∧ c ≠ 40 ∧ c ≠ 41 ∧ c ≠ 91 ∧ c ≠ 93 ∧ c ≠ 45 := by
  simp only [isLetterChar, isDigitChar, decide_eq_true_eq] at h
  simp only [isSpaceChar, decide_eq_false_iff_not]
  omega

theorem normalizeSearchInput_idem (s : Str) :
    normalizeSearchInput (normalizeSearchInput s) = normalizeSearchInput s := by
  by_cases hs : s = []
  · subst hs
    rfl
  · have hdef : normalizeSearchInput s =
        joinSpace ((fields (cleanSeparators (stripBracketedSegments (toLowerStr s) 0)
          false)).filter (fun t => ¬ t ∈ noiseTokens)) := by
      unfold normalizeSearchInput
      rw [if_neg hs]
    set toks := (fields (cleanSeparators (stripBracketedSegments (toLowerStr s) 0)
      false)).filter (fun t => ¬ t ∈ noiseTokens) with htoks_def
    have htokfacts : ∀ t ∈ toks, t ≠ [] ∧ ∀ c ∈ t,
        isSpaceChar c = false ∧ (isLetterChar c = true ∨ isDigitChar c = true) ∧
        ¬ (65 ≤ c ∧ c ≤ 90) := by
      intro t ht
      rw [htoks_def] at ht
      have ht' := List.mem_of_mem_filter ht
      obtain ⟨hne, hchars⟩ := mem_fields ht'
      refine ⟨hne, fun c hc => ?_⟩
      obtain ⟨hsp, hmem⟩ := hchars c hc
      rcases mem_cleanSeparators hmem with h32 | ⟨hmem2, halnum⟩
      · rw [h32] at hsp
        exact absurd hsp (by decide)
      · have hup := mem_toLowerStr_not_upper (mem_stripBracketedSegments hmem2)
        exact ⟨hsp, halnum, hup⟩
    by_cases hout : toks = []
    · rw [hdef, hout]
      rfl
    · have hch : ∀ c ∈ joinSpace toks, c = 32 ∨
          ((isLetterChar c = true ∨ isDigitChar c = true) ∧
            ¬ (65 ≤ c ∧ c ≤ 90) ∧ isSpaceChar c = false) := by
        intro c hc
        rcases mem_joinSpace hc with h32 | ⟨t, ht, hct⟩
        · exact Or.inl h32
        · obtain ⟨h1, h2, h3⟩ := (htokfacts t ht).2 c hct
          exact Or.inr ⟨h2, h3, h1⟩
      have hlower : toLowerStr (joinSpace toks) = joinSpace toks := by
        apply toLowerStr_eq_self
        intro c hc
        rcases hch c hc with h32 | ⟨_, hup, _⟩
        · subst h32
          omega
        · exact hup
      have hstrip : stripBracketedSegments (joinSpace toks) 0 = joinSpace toks := by
        apply stripBracketedSegments_eq_self
        intro c hc
        rcases hch c hc with h32 | ⟨halnum, hup, _⟩
        · subst h32
          refine ⟨by omega, by omega, by omega, by omega⟩
        · obtain ⟨_, p40, p41, p91, p93, _⟩ := alnum_char_props halnum hup
          exact ⟨p40, p41, p91, p93⟩
      have hclean : cleanSeparators (joinSpace toks) false = joinSpace toks := by
        apply cleanSeparators_joinSpace
        intro t ht
        obtain ⟨hne, hf⟩ := htokfacts t ht
        exact ⟨hne, fun c hc => decide_eq_true ((hf c hc).2.1)⟩
      have hfields : fields (joinSpace toks) = toks := by
        apply fields_joinSpace
        intro t ht
        obtain ⟨hne, hf⟩ := htokfacts t ht
        exact ⟨hne, fun c hc => (hf c hc).1⟩
      have hfilter : toks.filter (fun t => ¬ t ∈ noiseTokens) = toks := by
        rw [List.filter_eq_self]
        intro t ht
        rw [htoks_def] at ht
        exact (List.mem_filter.mp ht).2
      rw [hdef]
      unfold normalizeSearchInput
      rw [if_neg (joinSpace_ne_nil hout (fun t ht => (htokfacts t ht).1))]
      simp only [hlower, hstrip, hclean, hfields, hfilter]

theorem Normalize_idem (s : Str) : Normalize (Normalize s) = Normalize s := by
  by_cases hs : trimSpace s = []
  · have h1 : Normalize s = [] := by
      unfold Normalize
      rw [if_pos hs]
    rw [h1]
    rfl
  · have hdef : Normalize s = joinSpace (fields (cleanSeparators
        (stripCommonSuffixes (toLowerStr (trimSpace s))) false)) := by
      unfold Normalize
      rw [if_neg hs]
    set toks := fields (cleanSeparators
      (stripCommonSuffixes (toLowerStr (trimSpace s))) false) with htoks_def
    have htokfacts : ∀ t ∈ toks, t ≠ [] ∧ ∀ c ∈ t,
        isSpaceChar c = false ∧ (isLetterChar c = true ∨ isDigitChar c = true) ∧
        ¬ (65 ≤ c ∧ c ≤ 90) := by
      intro t ht
      rw [htoks_def] at ht
      obtain ⟨hne, hchars⟩ := mem_fields ht
      refine ⟨hne, fun c hc => ?_⟩
      obtain ⟨hsp, hmem⟩ := hchars c hc
      rcases mem_cleanSeparators hmem with h32 | ⟨hmem2, halnum⟩
      · rw [h32] at hsp
        exact absurd hsp (by decide)
      · have hup := mem_toLowerStr_not_upper (mem_stripCommonSuffixes hmem2)
        exact ⟨hsp, halnum, hup⟩
    by_cases hout : toks = []
    · rw [hdef, hout]
      rfl
    · have hne_out : joinSpace toks ≠ [] :=
        joinSpace_ne_nil hout (fun t ht => (htokfacts t ht).1)
      have htokens' : ∀ t ∈ toks, t ≠ [] ∧ ∀ d ∈ t, isSpaceChar d = false :=
        fun t ht => ⟨(htokfacts t ht).1, fun d hd => ((htokfacts t ht).2 d hd).1⟩
      have hch : ∀ c ∈ joinSpace toks, c = 32 ∨
          ((isLetterChar c = true ∨ isDigitChar c = true) ∧
            ¬ (65 ≤ c ∧ c ≤ 90) ∧ isSpaceChar c = false) := by
        intro c hc
        rcases mem_joinSpace hc with h32 | ⟨t, ht, hct⟩
        · exact Or.inl h32
        · obtain ⟨h1, h2, h3⟩ := (htokfacts t ht).2 c hct
          exact Or.inr ⟨h2, h3, h1⟩
      have htrim : trimSpace (joinSpace toks) = joinSpace toks :=
        trimSpace_eq_self (fun c hc => joinSpace_head_not_space htokens' hc)
          (fun c hc => joinSpace_getLast_not_space htokens' hc)
      have hlower : toLowerStr (joinSpace toks) = joinSpace toks := by
        apply toLowerStr_eq_self
        intro c hc
        rcases hch c hc with h32 | ⟨_, hup, _⟩
        · subst h32
          omega
        · exact hup
      have h41 : (joinSpace toks).getLast? ≠ some 41 := by
        intro hg
        rcases hch 41 (List.mem_of_mem_getLast? hg) with h32 | ⟨halnum, hup, _⟩
        · exact absurd h32 (by decide)
        · exact (alnum_char_props halnum hup).2.2.1 rfl
      have h93 : (joinSpace toks).getLast? ≠ some 93 := by
        intro hg
        rcases hch 93 (List.mem_of_mem_getLast? hg) with h32 | ⟨halnum, hup, _⟩
        · exact absurd h32 (by decide)
        · exact (alnum_char_props halnum hup).2.2.2.2.1 rfl
      have h45 : ¬ 45 ∈ joinSpace toks := by
        intro hg
        rcases hch 45 hg with h32 | ⟨halnum, hup, _⟩
        · exact absurd h32 (by decide)
        · exact (alnum_char_props halnum hup).2.2.2.2.2 rfl
      have hstrip2 : stripCommonSuffixes (joinSpace toks) = joinSpace toks :=
        stripCommonSuffixes_eq_self htrim h41 h93 h45
      have hclean : cleanSeparators (joinSpace toks) false = joinSpace toks := by
        apply cleanSeparators_joinSpace
        intro t ht
        obtain ⟨hne, hf⟩ := htokfacts t ht
        exact ⟨hne, fun c hc => decide_eq_true ((hf c hc).2.1)⟩
      have hfields : fields (joinSpace toks) = toks := by
        apply fields_joinSpace
        intro t ht
        obtain ⟨hne, hf⟩ := htokfacts t ht
        exact ⟨hne, fun c hc => (hf c hc).1⟩
      rw [hdef]
      unfold Normalize
      rw [htrim, if_neg hne_out]
      simp only [hlower, hstrip2, hclean, hfields]

/-- C9: both normalizers are idempotent — applying `Normalize`
(`mapper.go`) or `normalizeSearchInput` (`normalize.go`) to its own
output returns that output unchanged, for every input string. -/
theorem C9_normalize_idempotent :
    (∀ s : Str, Normalize (Normalize s) = Normalize s) ∧
    (∀ s : Str, normalizeSearchInput (normalizeSearchInput s) = normalizeSearchInput s) :=
  ⟨Normalize_idem, normalizeSearchInput_idem⟩

/-! ### Suffix stripping vs. unconditional bracket removal: claim C8 -/

theorem stripBracketedSegments_append_flat {l : Str} (rest : Str)
    (h : ∀ c ∈ l, c ≠ 40 ∧ c ≠ 41 ∧ c ≠ 91 ∧ c ≠ 93) :
    stripBracketedSegments (l ++ rest) 0 = l ++ stripBracketedSegments rest 0 := by
  induction l with
  | nil => rfl
  | cons c l' ih =>
      obtain ⟨h40, h41, h91, h93⟩ := h c (List.mem_cons_self _ _)
      simp only [List.cons_append]
      unfold stripBracketedSegments
      rw [if_neg (by simp [h40, h91]), if_neg (by simp [h41, h93]), if_pos rfl,
        ih (fun d hd => h d (List.mem_cons_of_mem _ hd))]
      cases rest <;> rfl

theorem stripBracketedSegments_append_deep {l : Str} (rest : Str) (d : Nat)
    (h : ∀ c ∈ l, c ≠ 40 ∧ c ≠ 41 ∧ c ≠ 91 ∧ c ≠ 93) (hd : d ≠ 0) :
    stripBracketedSegments (l ++ rest) d = stripBracketedSegments rest d := by
  induction l with
  | nil => rfl
  | cons c l' ih =>
      obtain ⟨h40, h41, h91, h93⟩ := h c (List.mem_cons_self _ _)
      simp only [List.cons_append]
      unfold stripBracketedSegments
      rw [if_neg (by simp [h40, h91]), if_neg (by simp [h41, h93]), if_neg hd,
        ih (fun e he => h e (List.mem_cons_of_mem _ he))]
      cases rest <;> rfl

/-- C8 counterexample: `normalizeSearchInput` drops the bracketed segment
`(world)` although `world` is not a noise token, so the segment's words
are not preserved in the normalized output. -/
theorem C8_counterexample :
    normalizeSearchInput (strChars "hello (world)") = strChars "hello" ∧
    suffixHasToken (strChars "world") = false ∧
    ¬ strChars "world" ∈ noiseTokens ∧
    ¬ 119 ∈ normalizeSearchInput (strChars "hello (world)") := by
  refine ⟨by decide, by decide, by decide, by decide⟩

/-- C8 (amended): `stripCommonSuffixes`' two trimmers (`mapper.go`) remove
a trailing bracketed or `" - "`-separated segment only when that segment
contains a noise token; `stripBracketedSegments` (`normalize.go`), used by
`normalizeSearchInput`, instead deletes every parenthesized segment
unconditionally. -/
theorem C8_suffix_stripping :
    (∀ s : Str, trimBracketedSuffix s = s ∨
      ∃ idx, suffixHasToken (((trimSpace s).take ((trimSpace s).length - 1)).drop
          (idx + 1)) = true ∧
        trimBracketedSuffix s = trimSpace ((trimSpace s).take idx)) ∧
    (∀ s : Str, trimDashSuffix s = s ∨
      ∃ idx, suffixHasToken (trimSpace ((trimSpace s).drop (idx + 3))) = true ∧
        trimDashSuffix s = trimSpace ((trimSpace s).take idx)) ∧
    (∀ pre seg post : Str,
      (∀ c ∈ pre, c ≠ 40 ∧ c ≠ 41 ∧ c ≠ 91 ∧ c ≠ 93) →
      (∀ c ∈ seg, c ≠ 40 ∧ c ≠ 41 ∧ c ≠ 91 ∧ c ≠ 93) →
      (∀ c ∈ post, c ≠ 40 ∧ c ≠ 41 ∧ c ≠ 91 ∧ c ≠ 93) →
      stripBracketedSegments (pre ++ 40 :: (seg ++ 41 :: post)) 0 = pre ++ post) := by
  refine ⟨fun s => ?_, fun s => ?_, fun pre seg post hpre hseg hpost => ?_⟩
  · simp only [trimBracketedSuffix]
    split
    · split
      · split
        · split
          · rename_i idx heq hlt hguard
            exact Or.inr ⟨idx, hguard, rfl⟩
          · exact Or.inl rfl
        · exact Or.inl rfl
      · exact Or.inl rfl
    · split
      · split
        · split
          · split
            · rename_i idx heq hlt hguard
              exact Or.inr ⟨idx, hguard, rfl⟩
            · exact Or.inl rfl
          · exact Or.inl rfl
        · exact Or.inl rfl
      · exact Or.inl rfl
  · simp only [trimDashSuffix]
    split
    · exact Or.inl rfl
    · rename_i idx _
      split
      · rename_i hguard
        exact Or.inr ⟨idx, hguard, rfl⟩
      · exact Or.inl rfl
  · rw [stripBracketedSegments_append_flat _ hpre]
    congr 1
    rw [show stripBracketedSegments (40 :: (seg ++ 41 :: post)) 0 =
      stripBracketedSegments (seg ++ 41 :: post) 1 from rfl]
    rw [stripBracketedSegments_append_deep _ 1 hseg (by omega)]
    rw [show stripBracketedSegments (41 :: post) 1 =
      stripBracketedSegments post 0 from rfl]
    exact stripBracketedSegments_eq_self hpost

/-- Witness for C8 at the concrete split of `"hello (world)"`. -/
theorem C8_witness :
    stripBracketedSegments (strChars "hello " ++ 40 :: (strChars "world" ++ 41 :: [])) 0 =
      strChars "hello " ++ [] :=
  C8_suffix_stripping.2.2 (strChars "hello ") (strChars "world") []
    (by decide) (by decide) (by decide)

/-! ### Composite similarity scoring: claim C3 -/

theorem min3_le_right (a b c : Nat) : min3 a b c ≤ c := by
  simp only [min3]
  split <;> split <;> omega

theorem levFuel_le (fuel : Nat) (a b : Str) :
    levFuel fuel a b ≤ maxInt a.length b.length := by
  induction fuel generalizing a b with
  | zero =>
      cases a <;> cases b <;> simp [levFuel, maxInt]
  | succ fuel ih =>
      cases a with
      | nil => simp [levFuel, maxInt]
      | cons x xs =>
          cases b with
          | nil => simp [levFuel, maxInt]
          | cons y ys =>
              have hstep : levFuel (fuel + 1) (x :: xs) (y :: ys) =
                  min3 (levFuel fuel xs (y :: ys) + 1)
                       (levFuel fuel (x :: xs) ys + 1)
                       (levFuel fuel xs ys + (if x = y then 0 else 1)) := rfl
              rw [hstep]
              have h3 := min3_le_right (levFuel fuel xs (y :: ys) + 1)
                (levFuel fuel (x :: xs) ys + 1)
                (levFuel fuel xs ys + (if x = y then 0 else 1))
              have hrec := ih xs ys
              have hcost : (if x = y then (0:Nat) else 1) ≤ 1 := by split <;> omega
              have hmm : maxInt (xs.length + 1) (ys.length + 1) =
                  maxInt xs.length ys.length + 1 := by
                simp only [maxInt]
                split <;> split <;> omega
              simp only [List.length_cons]
              rw [hmm]
              omega

theorem levenshteinDistance_le (a b : Str) :
    levenshteinDistance a b ≤ maxInt a.length b.length :=
  levFuel_le (a.length + b.length) a b

theorem similarity_nonneg (a b : Str) : 0 ≤ similarity a b := by
  simp only [similarity]
  split
  · norm_num
  · split
    · norm_num
    · rename_i hne hmax
      have hpos : 0 < maxInt a.length b.length := Nat.pos_of_ne_zero hmax
      rw [sub_nonneg, div_le_one (by exact_mod_cast hpos)]
      exact_mod_cast levenshteinDistance_le a b

theorem similarity_le_one (a b : Str) : similarity a b ≤ 1 := by
  simp only [similarity]
  split
  · norm_num
  · split
    · norm_num
    · rename_i hne hmax
      have hpos : 0 < maxInt a.length b.length := Nat.pos_of_ne_zero hmax
      have h1 : (0:ℚ) ≤ (levenshteinDistance a b : ℚ) / (maxInt a.length b.length : ℚ) := by
        apply div_nonneg
        · positivity
        · positivity
      linarith

theorem ScoreResult_nonneg (ta tt aa act : Str) : 0 ≤ ScoreResult ta tt aa act := by
  simp only [ScoreResult]
  split
  · norm_num
  · exact similarity_nonneg _ _

theorem ScoreResult_le_one (ta tt aa act : Str) : ScoreResult ta tt aa act ≤ 1 := by
  simp only [ScoreResult]
  split
  · norm_num
  · exact similarity_le_one _ _

/-- C3 counterexample: for target artist `"ab"`, title `"cd"` against
candidate artist `"ab"`, title `"xy"`, the matcher's composite score
(`ScoreResult`, similarity of the concatenations) is 3/5, while the
0.7·title + 0.3·artist weighting on independently normalized strings
gives 3/10 — the two schemes disagree. -/
theorem C3_counterexample :
    ScoreResult (strChars "ab") (strChars "cd") (strChars "ab") (strChars "xy") = 3/5 ∧
    weightedCompositeScore (strChars "ab") (strChars "cd")
      (strChars "ab") (strChars "xy") = 3/10 ∧
    (3/5 : ℚ) ≠ 3/10 := by
  refine ⟨?_, ?_, by norm_num⟩
  · have h1 : Normalize (trimSpace (strChars "ab" ++ [32] ++ strChars "cd")) =
        strChars "ab cd" := by decide
    have h2 : Normalize (trimSpace (strChars "ab" ++ [32] ++ strChars "xy")) =
        strChars "ab xy" := by decide
    have h3 : levenshteinDistance (strChars "ab cd") (strChars "ab xy") = 2 := by decide
    have h4 : strChars "ab cd" ≠ strChars "ab xy" := by decide
    simp only [ScoreResult, h1, h2, similarity, h3, h4, maxInt]
    norm_num [strChars]
    decide
  · have h1 : normalizeSearchInput (strChars "cd") = strChars "cd" := by decide
    have h2 : normalizeSearchInput (strChars "xy") = strChars "xy" := by decide
    have h3 : normalizeSearchInput (strChars "ab") = strChars "ab" := by decide
    have h4 : levenshteinDistance (strChars "cd") (strChars "xy") = 2 := by decide
    have h5 : strChars "cd" ≠ strChars "xy" := by decide
    simp only [weightedCompositeScore, h1, h2, h3, similarity, h4, h5, maxInt]
    norm_num [strChars]

/-- C3 (amended): the candidate matcher's composite (`ScoreResult`) is a
single Levenshtein similarity of the normalized artist+title
concatenations — zero when either side normalizes to empty — and lies in
`[0,1]`; the 0.7×title + 0.3×artist weighting on independently normalized
strings is computed only by `trackMatchScore` (`match.go`), whose score
equals that weighted composite whenever all four normalized strings are
nonempty. -/
theorem C3_composite_score :
    (∀ ta tt aa act : Str,
        0 ≤ ScoreResult ta tt aa act ∧ ScoreResult ta tt aa act ≤ 1) ∧
    (∀ ta tt aa act : Str,
        Normalize (trimSpace (ta ++ [32] ++ tt)) ≠ [] →
        Normalize (trimSpace (aa ++ [32] ++ act)) ≠ [] →
        ScoreResult ta tt aa act =
          similarity (Normalize (trimSpace (ta ++ [32] ++ tt)))
            (Normalize (trimSpace (aa ++ [32] ++ act)))) ∧
    (∀ (rt ra : Str) (cand : SpotifyTrackData),
        normalizeSearchInput rt ≠ [] →
        normalizeSearchInput ra ≠ [] →
        normalizeSearchInput cand.name ≠ [] →
        normalizeSearchInput (joinArtistNames cand) ≠ [] →
        (trackMatchScore rt ra cand).1 =
          weightedCompositeScore ra rt (joinArtistNames cand) cand.name) := by
  refine ⟨fun ta tt aa act => ⟨ScoreResult_nonneg ta tt aa act,
      ScoreResult_le_one ta tt aa act⟩,
    fun ta tt aa act h1 h2 => ?_, fun rt ra cand h1 h2 h3 h4 => ?_⟩
  · simp only [ScoreResult]
    rw [if_neg]
    push_neg
    exact ⟨h1, h2⟩
  · simp only [trackMatchScore]
    rw [if_neg (by push_neg; exact ⟨h1, h2, h3, h4⟩)]
    simp only [weightedCompositeScore]
    split <;> rfl

/-- Witness for C3 at concrete nonempty inputs. -/
theorem C3_witness :
    (trackMatchScore (strChars "ab") (strChars "cd")
        ⟨strChars "x", strChars "ab", 0, [strChars "cd"], [], [], []⟩).1 =
      weightedCompositeScore (strChars "cd") (strChars "ab")
        (joinArtistNames ⟨strChars "x", strChars "ab", 0, [strChars "cd"], [], [], []⟩)
        (strChars "ab") :=
  C3_composite_score.2.2 (strChars "ab") (strChars "cd")
    ⟨strChars "x", strChars "ab", 0, [strChars "cd"], [], [], []⟩
    (by decide) (by decide) (by decide) (by decide)

/-! ### Candidate matcher selection: claim C1 -/

theorem better_true_iff (a b : ℚ × Bool × Bool) :
    better a b = true ↔
      (b.1 < a.1 ∨ (a.1 = b.1 ∧ ((a.2.1 = true ∧ ¬ b.2.1 = true) ∨
        (a.2.1 = b.2.1 ∧ a.2.2 = true ∧ ¬ b.2.2 = true)))) := by
  rcases a with ⟨qa, ea, ta⟩
  rcases b with ⟨qb, eb, tb⟩
  cases ea <;> cases ta <;> cases eb <;> cases tb <;>
    simp [better]

theorem better_iff_rank (a b : ℚ × Bool × Bool) :
    better a b = true ↔
      (b.1 < a.1 ∨ (a.1 = b.1 ∧ flagRank b.2.1 b.2.2 < flagRank a.2.1 a.2.2)) := by
  rw [better_true_iff]
  rcases a with ⟨qa, ea, ta⟩
  rcases b with ⟨qb, eb, tb⟩
  cases ea <;> cases ta <;> cases eb <;> cases tb <;>
    simp [flagRank]

theorem better_irrefl (a : ℚ × Bool × Bool) : better a a = false := by
  rw [← Bool.not_eq_true, better_iff_rank]
  push_neg
  exact ⟨le_refl _, fun _ => le_refl _⟩

theorem better_asymm {a b : ℚ × Bool × Bool} (h : better a b = true) :
    better b a = false := by
  rw [better_iff_rank] at h
  rw [← Bool.not_eq_true, better_iff_rank]
  push_neg
  rcases h with h | ⟨he, hr⟩
  · exact ⟨le_of_lt h, fun hc => absurd (hc ▸ h) (lt_irrefl _)⟩
  · exact ⟨le_of_eq he.symm, fun _ => le_of_lt hr⟩

theorem better_trans {a b c : ℚ × Bool × Bool}
    (h1 : better a b = true) (h2 : better b c = true) : better a c = true := by
  rw [better_iff_rank] at *
  rcases h1 with h1 | ⟨e1, r1⟩ <;> rcases h2 with h2 | ⟨e2, r2⟩
  · exact Or.inl (lt_trans h2 h1)
  · exact Or.inl (e2 ▸ h1)
  · exact Or.inl (e1 ▸ h2)
  · exact Or.inr ⟨e1.trans e2, lt_trans r2 r1⟩

theorem better_of_better_of_not {a b c : ℚ × Bool × Bool}
    (hc : better c b = true) (ha : better a b = false) : better c a = true := by
  rw [better_iff_rank] at hc ⊢
  rw [← Bool.not_eq_true, better_iff_rank] at ha
  push_neg at ha
  obtain ⟨hle, himp⟩ := ha
  rcases hc with hcb | ⟨he, hr⟩
  · exact Or.inl (lt_of_le_of_lt hle hcb)
  · rcases lt_or_eq_of_le hle with hlt | heq
    · exact Or.inl (he ▸ hlt)
    · refine Or.inr ⟨he.trans heq.symm, lt_of_le_of_lt (himp heq) hr⟩

theorem searchLoop_cons (minConf score : ℚ) (exact_ titleM : Bool)
    (rest : List (ℚ × Bool × Bool)) (i0 : Nat) (st : MatchState) :
    searchLoop minConf ((score, exact_, titleM) :: rest) i0 st =
      if minConf ≤ score ∧
         (st.bestScore < score ∨
          (score = st.bestScore ∧
           ((exact_ ∧ ¬ st.bestExactArtist) ∨
            (exact_ = st.bestExactArtist ∧ titleM ∧ ¬ st.bestTitleMatch))))
      then searchLoop minConf rest (i0 + 1) ⟨score, some i0, exact_, titleM⟩
      else searchLoop minConf rest (i0 + 1) st := rfl

theorem selRel_cons (minConf : ℚ) (cur s : ℚ × Bool × Bool)
    (rest : List (ℚ × Bool × Bool)) :
    selRel minConf cur (s :: rest) =
      if minConf ≤ s.1 ∧ better s cur then
        some ((selRel minConf s rest).elim (0, s) (fun p => (p.1 + 1, p.2)))
      else (selRel minConf cur rest).map (fun p => (p.1 + 1, p.2)) := rfl

theorem searchLoop_eq_selRel (minConf : ℚ) (l : List (ℚ × Bool × Bool))
    (i0 : Nat) (st : MatchState) :
    searchLoop minConf l i0 st =
      match selRel minConf (st.bestScore, st.bestExactArtist, st.bestTitleMatch) l with
      | none => st
      | some (j, s) => ⟨s.1, some (i0 + j), s.2.1, s.2.2⟩ := by
  induction l generalizing i0 st with
  | nil => rfl
  | cons s rest ih =>
      rcases s with ⟨score, exact_, titleM⟩
      rw [searchLoop_cons, selRel_cons]
      have hcond : (minConf ≤ score ∧
          (st.bestScore < score ∨ (score = st.bestScore ∧
            ((exact_ ∧ ¬ st.bestExactArtist) ∨
             (exact_ = st.bestExactArtist ∧ titleM ∧ ¬ st.bestTitleMatch))))) ↔
          (minConf ≤ score ∧ better (score, exact_, titleM)
            (st.bestScore, st.bestExactArtist, st.bestTitleMatch) = true) := by
        rw [better_true_iff]
      by_cases h : minConf ≤ score ∧ better (score, exact_, titleM)
          (st.bestScore, st.bestExactArtist, st.bestTitleMatch) = true
      · rw [if_pos (hcond.mpr h), if_pos h]
        have hih := ih (i0 + 1) ⟨score, some i0, exact_, titleM⟩
        dsimp only at hih
        rw [hih]
        cases hs2 : selRel minConf (score, exact_, titleM) rest with
        | none => simp
        | some p =>
            rcases p with ⟨j, b⟩
            have : i0 + 1 + j = i0 + (j + 1) := by omega
            simp [this]
      · rw [if_neg (fun hc => h (hcond.mp hc)), if_neg h]
        rw [ih (i0 + 1) st]
        cases hs2 : selRel minConf
            (st.bestScore, st.bestExactArtist, st.bestTitleMatch) rest with
        | none => simp
        | some p =>
            rcases p with ⟨j, b⟩
            have : i0 + 1 + j = i0 + (j + 1) := by omega
            simp [this]

theorem selRel_eq_none_iff (minConf : ℚ) (cur : ℚ × Bool × Bool)
    (l : List (ℚ × Bool × Bool)) :
    selRel minConf cur l = none ↔
      ∀ s ∈ l, ¬ (minConf ≤ s.1 ∧ better s cur = true) := by
  induction l generalizing cur with
  | nil => simp [selRel]
  | cons s rest ih =>
      rw [selRel_cons]
      by_cases h : minConf ≤ s.1 ∧ better s cur = true
      · rw [if_pos h]
        simp only [reduceCtorEq, false_iff, not_forall]
        exact ⟨s, List.mem_cons_self _ _, by simpa using h⟩
      · rw [if_neg h]
        cases hs2 : selRel minConf cur rest with
        | none =>
            simp only [Option.map_none', true_iff]
            intro t ht
            rcases List.mem_cons.mp ht with rfl | ht2
            · exact h
            · exact (ih cur).mp hs2 t ht2
        | some p =>
            simp only [Option.map_some', reduceCtorEq, false_iff, not_forall]
            have hne := (ih cur).not.mp (by simp [hs2])
            push_neg at hne
            obtain ⟨t, ht, hq⟩ := hne
            exact ⟨t, List.mem_cons_of_mem _ ht, by simpa using hq⟩

theorem selRel_eq_some_spec (minConf : ℚ) :
    ∀ (l : List (ℚ × Bool × Bool)) (cur : ℚ × Bool × Bool) (j : Nat)
      (b : ℚ × Bool × Bool), selRel minConf cur l = some (j, b) →
    ∃ hj : j < l.length,
      l.get ⟨j, hj⟩ = b ∧ minConf ≤ b.1 ∧ better b cur = true ∧
      (∀ k (hk : k < l.length), minConf ≤ (l.get ⟨k, hk⟩).1 →
        better (l.get ⟨k, hk⟩) b = false) ∧
      (∀ k (hk : k < j), minConf ≤ (l.get ⟨k, Nat.lt_trans hk hj⟩).1 →
        better b (l.get ⟨k, Nat.lt_trans hk hj⟩) = true) := by
  intro l
  induction l with
  | nil =>
      intro cur j b h
      simp [selRel] at h
  | cons s rest ih =>
      intro cur j b h
      rw [selRel_cons] at h
      by_cases hq : minConf ≤ s.1 ∧ better s cur = true
      · rw [if_pos hq] at h
        cases hs2 : selRel minConf s rest with
        | none =>
            rw [hs2] at h
            simp only [Option.elim_none, Option.some.injEq, Prod.mk.injEq] at h
            obtain ⟨h1, h2⟩ := h
            subst h1
            subst h2
            refine ⟨by simp, rfl, hq.1, hq.2, ?_, ?_⟩
            · intro k hk hmk
              cases k with
              | zero => exact better_irrefl s
              | succ k =>
                  have hmem : rest.get ⟨k, by simpa using hk⟩ ∈ rest :=
                    List.get_mem _ _ _
                  have := (selRel_eq_none_iff minConf s rest).mp hs2 _ hmem
                  cases hb : better ((s :: rest).get ⟨k + 1, hk⟩) s with
                  | false => rfl
                  | true =>
                      exact absurd ⟨hmk, hb⟩ this
            · intro k hk
              omega
        | some p =>
            rcases p with ⟨j', b'⟩
            rw [hs2] at h
            simp only [Option.elim_some, Option.some.injEq, Prod.mk.injEq] at h
            obtain ⟨h1, h2⟩ := h
            subst h1
            subst h2
            obtain ⟨hj', hget', hmin', hbet', hopt', hfirst'⟩ := ih s j' b' hs2
            refine ⟨by simpa using Nat.succ_lt_succ hj', hget', hmin',
              better_trans hbet' hq.2, ?_, ?_⟩
            · intro k hk hmk
              cases k with
              | zero => exact better_asymm hbet'
              | succ k => exact hopt' k (by simpa using hk) hmk
            · intro k hk hmk
              cases k with
              | zero => exact hbet'
              | succ k => exact hfirst' k (by omega) hmk
      · rw [if_neg hq] at h
        cases hs2 : selRel minConf cur rest with
        | none =>
            rw [hs2] at h
            simp at h
        | some p =>
            rcases p with ⟨j', b'⟩
            rw [hs2] at h
            simp only [Option.map_some', Option.some.injEq, Prod.mk.injEq] at h
            obtain ⟨h1, h2⟩ := h
            subst h1
            subst h2
            obtain ⟨hj', hget', hmin', hbet', hopt', hfirst'⟩ := ih cur j' b' hs2
            have hs_beats : ∀ hmk : minConf ≤ s.1, better b' s = true := by
              intro hmk
              have hbs : better s cur = false := by
                cases hb : better s cur with
                | false => rfl
                | true => exact absurd ⟨hmk, hb⟩ hq
              exact better_of_better_of_not hbet' hbs
            refine ⟨by simpa using Nat.succ_lt_succ hj', hget', hmin', hbet', ?_, ?_⟩
            · intro k hk hmk
              cases k with
              | zero => exact better_asymm (hs_beats hmk)
              | succ k => exact hopt' k (by simpa using hk) hmk
            · intro k hk hmk
              cases k with
              | zero => exact hs_beats hmk
              | succ k => exact hfirst' k (by omega) hmk

theorem candidateScore_nonneg (artist title : Str) (c : SpotifyTrackData) :
    0 ≤ (candidateScore artist title c).1 := by
  have hbase := ScoreResult_nonneg artist title (joinArtistNames c) c.name
  cases hex : artistExactMatch c artist <;>
    cases htm : titleSubstringMatch c.name title <;>
      simp [candidateScore, hex, htm] <;>
        split <;> linarith

theorem candidateScore_le_one (artist title : Str) (c : SpotifyTrackData) :
    (candidateScore artist title c).1 ≤ 1 := by
  cases hex : artistExactMatch c artist <;>
    cases htm : titleSubstringMatch c.name title <;>
      simp [candidateScore, hex, htm] <;>
        split <;> linarith

theorem candidateScore_flag_pos (artist title : Str) (c : SpotifyTrackData)
    (h : (candidateScore artist title c).2.1 = true ∨
         (candidateScore artist title c).2.2 = true) :
    0 < (candidateScore artist title c).1 := by
  have hbase := ScoreResult_nonneg artist title (joinArtistNames c) c.name
  cases hex : artistExactMatch c artist <;>
    cases htm : titleSubstringMatch c.name title <;>
      simp [candidateScore, hex, htm] at h ⊢ <;>
        split <;> linarith

theorem better_sentinel_iff (artist title : Str) (c : SpotifyTrackData) :
    better (candidateScore artist title c) (0, false, false) = true ↔
      0 < (candidateScore artist title c).1 := by
  rw [better_true_iff]
  constructor
  · rintro (h | ⟨heq, hfl⟩)
    · exact h
    · refine candidateScore_flag_pos artist title c ?_
      rcases hfl with ⟨h1, _⟩ | ⟨_, h2, _⟩
      · exact Or.inl h1
      · exact Or.inr h2
  · intro h
    exact Or.inl h

theorem searchTrack_eq (title artist : Str) (items : List SpotifyTrackData)
    (minConf : ℚ) (hne : items ≠ []) :
    searchTrack title artist items minConf =
      match selRel minConf (0, false, false)
          ((items.take 5).map (candidateScore artist title)) with
      | none => .error ⟨title, artist⟩
      | some (j, _) => .ok (items.getD j ⟨[], [], 0, [], [], [], []⟩) := by
  simp only [searchTrack]
  rw [if_neg hne]
  rw [searchLoop_eq_selRel]
  dsimp only
  cases hsel : selRel minConf (0, false, false)
      ((items.take 5).map (candidateScore artist title)) with
  | none => rfl
  | some p =>
      rcases p with ⟨j, b⟩
      simp

theorem scored_get (artist title : Str) (l : List SpotifyTrackData)
    (k : Nat) (hk : k < l.length) :
    (l.map (candidateScore artist title)).get
        ⟨k, by rw [List.length_map]; exact hk⟩ =
      candidateScore artist title (l.get ⟨k, hk⟩) := by
  rw [List.get_eq_getElem, List.get_eq_getElem, List.getElem_map]

/-- C1 (amended): `searchTrack` evaluates at most the first 5 candidates;
each candidate's score is the composite similarity plus the 0.4
exact-artist and 0.3 title-substring boosts clamped into `[0,1]`; it
fails with the no-confident-match error carrying the original title and
artist exactly when no cap-5 candidate has score at least `minConfidence`
and strictly above 0 (a zero-score candidate is never selected, even at
`minConfidence = 0`); a returned candidate has a qualifying score and is
the first candidate attaining the maximum under the
score-then-exact-artist-then-title-substring preference. -/
theorem C1_candidate_matcher (title artist : Str) (items : List SpotifyTrackData)
    (minConf : ℚ) :
    (searchTrack title artist items minConf =
      searchTrack title artist (items.take 5) minConf) ∧
    (∀ c ∈ items.take 5, 0 ≤ (candidateScore artist title c).1 ∧
      (candidateScore artist title c).1 ≤ 1) ∧
    (searchTrack title artist items minConf = .error ⟨title, artist⟩ ↔
      ∀ s ∈ (items.take 5).map (candidateScore artist title),
        ¬ (minConf ≤ s.1 ∧ 0 < s.1)) ∧
    (∀ c, searchTrack title artist items minConf = .ok c →
      ∃ i, ∃ hi : i < (items.take 5).length,
        (items.take 5).get ⟨i, hi⟩ = c ∧
        minConf ≤ (candidateScore artist title c).1 ∧
        0 < (candidateScore artist title c).1 ∧
        (∀ k (hk : k < (items.take 5).length),
          minConf ≤ (candidateScore artist title ((items.take 5).get ⟨k, hk⟩)).1 →
          better (candidateScore artist title ((items.take 5).get ⟨k, hk⟩))
            (candidateScore artist title c) = false) ∧
        (∀ k (hk : k < i),
          minConf ≤ (candidateScore artist title
            ((items.take 5).get ⟨k, Nat.lt_trans hk hi⟩)).1 →
          better (candidateScore artist title c)
            (candidateScore artist title
              ((items.take 5).get ⟨k, Nat.lt_trans hk hi⟩)) = true)) := by
  refine ⟨?_, fun c _ => ⟨candidateScore_nonneg _ _ _, candidateScore_le_one _ _ _⟩,
    ?_, ?_⟩
  · by_cases hne : items = []
    · subst hne
      rfl
    · have htne : items.take 5 ≠ [] := by
        intro hc
        rcases List.take_eq_nil_iff.mp hc with h5 | hl
        · omega
        · exact hne hl
      rw [searchTrack_eq title artist items minConf hne,
        searchTrack_eq title artist (items.take 5) minConf htne]
      rw [List.take_take, Nat.min_self]
      cases hsel : selRel minConf (0, false, false)
          ((items.take 5).map (candidateScore artist title)) with
      | none => rfl
      | some p =>
          rcases p with ⟨j, b⟩
          obtain ⟨hj, _⟩ := selRel_eq_some_spec minConf _ (0, false, false) j b hsel
          rw [List.length_map, List.length_take] at hj
          have hj5 : j < 5 := lt_of_lt_of_le hj (min_le_left _ _)
          dsimp only
          rw [List.getD_eq_getElem?_getD, List.getD_eq_getElem?_getD,
            List.getElem?_take, if_pos hj5]
  · by_cases hne : items = []
    · subst hne
      simp [searchTrack]
    · rw [searchTrack_eq title artist items minConf hne]
      cases hsel : selRel minConf (0, false, false)
          ((items.take 5).map (candidateScore artist title)) with
      | none =>
          simp only [eq_self_iff_true, true_iff]
          intro s hs hq
          obtain ⟨c', hc', rfl⟩ := List.mem_map.mp hs
          exact (selRel_eq_none_iff minConf (0, false, false) _).mp hsel _ hs
            ⟨hq.1, (better_sentinel_iff artist title c').mpr hq.2⟩
      | some p =>
          rcases p with ⟨j, b⟩
          obtain ⟨hj, hget, hmin, hbet, _, _⟩ :=
            selRel_eq_some_spec minConf _ (0, false, false) j b hsel
          constructor
          · intro h
            simp at h
          · intro hall
            exfalso
            refine hall b (by rw [← hget]; exact List.get_mem _ _ _) ⟨hmin, ?_⟩
            have hjlen : j < (items.take 5).length := by
              rw [List.length_map] at hj
              exact hj
            have hb : b = candidateScore artist title ((items.take 5).get ⟨j, hjlen⟩) := by
              rw [← hget]
              exact scored_get artist title (items.take 5) j hjlen
            rw [hb]
            refine (better_sentinel_iff artist title _).mp ?_
            rw [← hb]
            exact hbet
  · intro c hok
    by_cases hne : items = []
    · subst hne
      simp [searchTrack] at hok
    · rw [searchTrack_eq title artist items minConf hne] at hok
      cases hsel : selRel minConf (0, false, false)
          ((items.take 5).map (candidateScore artist title)) with
      | none =>
          rw [hsel] at hok
          simp at hok
      | some p =>
          rcases p with ⟨j, b⟩
          rw [hsel] at hok
          simp only [Except.ok.injEq] at hok
          obtain ⟨hj, hget, hmin, hbet, hopt, hfirst⟩ :=
            selRel_eq_some_spec minConf _ (0, false, false) j b hsel
          have hjlen : j < (items.take 5).length := by
            rw [List.length_map] at hj
            exact hj
          have hjitems : j < items.length := by
            rw [List.length_take] at hjlen
            omega
          have hgetc : (items.take 5).get ⟨j, hjlen⟩ = c := by
            rw [← hok, List.getD_eq_getElem?_getD,
              List.getElem?_eq_getElem hjitems]
            rw [List.get_eq_getElem]
            simp only [Option.getD_some]
            rw [List.getElem_take]
          have hb : b = candidateScore artist title c := by
            rw [← hgetc, ← hget]
            exact scored_get artist title (items.take 5) j hjlen
          refine ⟨j, hjlen, hgetc, hb ▸ hmin, ?_, ?_, ?_⟩
          · exact (better_sentinel_iff artist title c).mp (hb ▸ hbet)
          · intro k hk hmk
            have hkm : k < ((items.take 5).map (candidateScore artist title)).length := by
              rw [List.length_map]
              exact hk
            have := hopt k hkm (by rw [scored_get artist title (items.take 5) k hk]; exact hmk)
            rw [scored_get artist title (items.take 5) k hk] at this
            rw [← hb]
            exact this
          · intro k hk hmk
            have := hfirst k (by omega)
              (by rw [scored_get artist title (items.take 5) k (Nat.lt_trans hk hjlen)]; exact hmk)
            rw [scored_get artist title (items.take 5) k (Nat.lt_trans hk hjlen)] at this
            rw [← hb]
            exact this

/-- C1 counterexample to the claim as stated: a non-empty candidate list
whose single candidate scores exactly 0 with no boost flags; its score 0
is at least `minConfidence = 0`, so the claim says it should be returned,
yet `searchTrack` fails with the no-confident-match error (the loop's
best-tracking starts at score 0, and a candidate must strictly beat that
sentinel to be recorded). -/
theorem C1_counterexample :
    candidateScore [] []
        ⟨strChars "i", strChars "x", 1, [strChars "y"], [], [], []⟩ =
      (0, false, false) ∧
    (0 : ℚ) ≤ (candidateScore [] []
        ⟨strChars "i", strChars "x", 1, [strChars "y"], [], [], []⟩).1 ∧
    searchTrack [] [] [⟨strChars "i", strChars "x", 1, [strChars "y"], [], [], []⟩] 0 =
      .error ⟨[], []⟩ := by
  decide

/-- C1 witness: the amended characterization applied at a concrete input;
its error-iff direction shows the zero-score candidate is rejected even
at `minConfidence = 0`. -/
theorem C1_witness :
    searchTrack [] [] [⟨strChars "i", strChars "x", 1, [strChars "y"], [], [], []⟩] 0 =
      .error ⟨[], []⟩ := by
  refine ((C1_candidate_matcher [] []
    [⟨strChars "i", strChars "x", 1, [strChars "y"], [], [], []⟩] 0).2.2.1).mpr ?_
  intro s hs
  rintro ⟨_, h2⟩
  have hmap : ([(⟨strChars "i", strChars "x", 1, [strChars "y"], [], [], []⟩ :
      SpotifyTrackData)].take 5).map (candidateScore [] []) = [(0, false, false)] := by
    decide
  rw [hmap] at hs
  have hm : s = ((0 : ℚ), false, false) := by simpa using hs
  rw [hm] at h2
  exact absurd h2 (lt_irrefl 0)

end Overture
